import Mathlib

/-!
Shallow embedding of `shorten.py` (the unishorten tool): the mapping-table
parser, reverse-index construction, index optimization, the rewrite-graph
builder and the breadth-first shortest-path search, together with proofs
about the claims of the specification.

Python strings are modelled as `List Char`; Python dicts as insertion-ordered
association lists; loops whose termination is not structural carry an explicit
fuel argument and return `none` when the fuel runs out or when the Python code
would raise an exception.
-/

/-- A Python string, modelled as its list of characters. -/
abbrev Str := List Char

/-- Lookup in an insertion-ordered association list (Python `d[k]` read /
`k in d` test). -/
def getv {κ : Type} [DecidableEq κ] {α : Type} : List (κ × α) → κ → Option α
  | [], _ => none
  | (a, b) :: t, k => if a = k then some b else getv t k

/-- Python `d[k] = v`: overwrite in place when the key is present, otherwise
append at the end (insertion order of a Python dict). -/
def dictSet {κ : Type} [DecidableEq κ] {α : Type} : List (κ × α) → κ → α → List (κ × α)
  | [], k, v => [(k, v)]
  | (a, b) :: t, k, v => if a = k then (a, v) :: t else (a, b) :: dictSet t k v

/-- `s[p : p + long.length] == long` — `long` occurs in `s` at position `p`.
For an empty `long` this is true at every position (as in Python slicing). -/
def occursAt (s long : Str) (p : Nat) : Bool :=
  (s.drop p).take long.length = long

/-- Python `s.find(long, start)`: the least position `p` with
`start ≤ p ≤ s.length` at which `long` occurs, `none` when there is none
(Python returns `-1`). -/
def pyFind (s long : Str) (start : Nat) : Option Nat :=
  (List.range (s.length + 1)).find? (fun p => start ≤ p ∧ occursAt s long p)

/-- Python list indexing `l[i]` with an `int` index: negative indices count
from the end, out-of-range indices raise `IndexError` (here: `none`). -/
def pyGet {α : Type} (l : List α) (i : Int) : Option α :=
  if i < 0 then
    if (-i).toNat ≤ l.length then l.get? (l.length - (-i).toNat) else none
  else
    l.get? i.toNat

/-- The graph of `shorten.py`: `class DAG`.  A node is identified by its index
into `nodes` (the Python `Node.id`, assigned as `len(self.nodes) - 1` at
creation); `nodes` stores each node's `value` (`none` is Python `None`, used
for the two sentinel nodes).  `edges_from`/`edges_to` are the forward and
reverse adjacency dictionaries. -/
structure DAG where
  nodes : List (Option Str)
  edges_from : List (Nat × List Nat)
  edges_to : List (Nat × List Nat)
deriving Repr, DecidableEq

/-- `DAG.__init__`. -/
def DAG.empty : DAG := ⟨[], [], []⟩

/-- `DAG.add_node`: append a node, its id is the new length minus one. -/
def DAG.add_node (g : DAG) (value : Option Str) : DAG × Nat :=
  ({ g with nodes := g.nodes ++ [value] }, g.nodes.length)

/-- Append `v` to the adjacency list of `k`, creating it when absent
(`if k not in d: d[k] = []` followed by `d[k].append(v)`). -/
def adjAdd (m : List (Nat × List Nat)) (k v : Nat) : List (Nat × List Nat) :=
  match getv m k with
  | none => m ++ [(k, [v])]
  | some l => dictSet m k (l ++ [v])

/-- `DAG.add_edge`. -/
def DAG.add_edge (g : DAG) (node_from node_to : Nat) : DAG :=
  { g with
    edges_from := adjAdd g.edges_from node_from node_to
    edges_to := adjAdd g.edges_to node_to node_from }

/-- `DAG.predecessors` (returns a copy; the empty list when unknown). -/
def DAG.predecessors (g : DAG) (node : Nat) : List Nat :=
  (getv g.edges_to node).getD []

/-- `DAG.successors`. -/
def DAG.successors (g : DAG) (node : Nat) : List Nat :=
  (getv g.edges_from node).getD []

/-- The `while True: start_pos = string.find(long, start_pos) ...` loop of
`shorten_optimal`: connect the single shortcut node `n` to every occurrence
of `long` in `string`.  The predecessor list is read once per occurrence, the
successor list is re-read at every iteration of the outer `for`, exactly as
in the Python code.  `fuel` only bounds the number of loop iterations; a
found occurrence starts the next search at `start_pos + 1`, so
`string.length + 1` iterations always suffice (the caller passes that). -/
def occLoop (fuel : Nat) (g : DAG) (n : Nat) (string long : Str)
    (char_nodes : List Nat) (start_pos : Nat) : Option DAG :=
  match fuel with
  | 0 => none
  | fuel + 1 =>
    match pyFind string long start_pos with
    | none => some g
    | some p => do
      let start_node ← pyGet char_nodes (p : Int)
      let end_node ← pyGet char_nodes ((p : Int) + long.length - 1)
      let g := (g.predecessors start_node).foldl (fun g from_node =>
        (g.successors end_node).foldl (fun g to_node =>
          (g.add_edge from_node n).add_edge n to_node) g) g
      occLoop fuel g n string long char_nodes (p + 1)

/-- The body of the `for char in string` loop of `shorten_optimal`: append
one node holding the character and the chain edge from the previous node. -/
def chainStep (acc : DAG × List Nat × Nat) (char : Char) : DAG × List Nat × Nat :=
  let (g, char_nodes, last) := acc
  let (g, n) := g.add_node (some [char])
  let g := g.add_edge last n
  (g, char_nodes ++ [n], n)

/-- The first phase of `shorten_optimal`'s graph construction: create the
`start` node, then one node and chain edge per character.  Returns the
graph, the `start` id, `char_nodes` and the last chain node (`last`). -/
def buildChain (string : Str) : DAG × Nat × List Nat × Nat :=
  let g := DAG.empty
  let (g, start) := g.add_node none
  let (g, char_nodes, last) := string.foldl chainStep (g, ([] : List Nat), start)
  (g, start, char_nodes, last)

/-- The body of the `for long, shortcuts in lookup.items()` loop of
`shorten_optimal`: pick the first shortcut (`IndexError`, i.e. `none`, when
the list is empty), allocate the single shortcut node, and wire it to every
occurrence. -/
def shortcutStep (string : Str) (char_nodes : List Nat) (g : DAG)
    (entry : Str × List Str) : Option DAG := do
  let (long, shortcuts) := entry
  let shortcut ← shortcuts.head?
  let (g, n) := g.add_node (some shortcut)
  occLoop (string.length + 1) g n string long char_nodes 0

/-- The graph-construction phase of `shorten_optimal` (everything before
`# prepare`): the pass-through chain `start → chars → end` plus one shortcut
node per index entry, wired to every occurrence of that entry's key.
Returns the graph, the `start` id, the `end` id and `char_nodes`.
`none` models a Python exception (`IndexError` on `shortcuts[0]` for an
empty shortcut list, or on a `char_nodes` index out of range). -/
def buildGraph (lookup : List (Str × List Str)) (string : Str) :
    Option (DAG × Nat × Nat × List Nat) := do
  let (g, start, char_nodes, last) := buildChain string
  let (g, endN) := g.add_node none
  let g := g.add_edge last endN
  let g ← lookup.foldlM (shortcutStep string char_nodes) g
  return (g, start, endN, char_nodes)

/-- State of the breadth-first search loop: the queue `q` and the Python
dicts `dist` and `pred`. -/
structure BfsState where
  q : List Nat
  dist : List (Nat × Nat)
  pred : List (Nat × Option Nat)
deriving Repr, DecidableEq

/-- Body of the `for succ in g.successors(current)` loop: compute
`distance = dist[current] + 1` (a `KeyError`, i.e. `none`, when `current` is
not in `dist`), relax `dist[succ]`/`pred[succ]` when the distance is strictly
smaller or the successor unseen, then unconditionally `q.append(succ)`. -/
def bfsRelax (current : Nat) (st : BfsState) (succ : Nat) :
    Option BfsState := do
  let dc ← getv st.dist current
  let distance := dc + 1
  let st :=
    match getv st.dist succ with
    | some ds =>
      if distance < ds then
        { st with dist := dictSet st.dist succ distance
                  pred := dictSet st.pred succ (some current) }
      else st
    | none =>
      { st with dist := dictSet st.dist succ distance
                pred := dictSet st.pred succ (some current) }
  return { st with q := st.q ++ [succ] }

/-- One iteration of the `while len(q) > 0` loop body: pop the head of the
queue and run `bfsRelax` over its successors. -/
def bfsStep (g : DAG) (st : BfsState) : Option BfsState :=
  match st.q with
  | [] => some st
  | current :: rest =>
    (g.successors current).foldlM (bfsRelax current) { st with q := rest }

/-- The `while len(q) > 0` search loop, with fuel: `none` when the fuel runs
out before the queue empties (which is how we observe non-termination of the
Python loop) or on a `KeyError`. -/
def bfsLoop (g : DAG) : Nat → BfsState → Option BfsState
  | fuel, st =>
    if st.q.isEmpty then some st
    else
      match fuel with
      | 0 => none
      | fuel + 1 => (bfsStep g st).bind (bfsLoop g fuel)

/-- The path-reconstruction loop `while current is not None: path.insert(0,
current); current = pred[current]`, with fuel; `none` on fuel exhaustion or
a `KeyError` in `pred[current]`.  Returns the path from the `pred`-root to
the argument, in that order. -/
def walkPred (pred : List (Nat × Option Nat)) : Nat → Option Nat → Option (List Nat)
  | _, none => some []
  | 0, some _ => none
  | fuel + 1, some current => do
    let nxt ← getv pred current
    let rest ← walkPred pred fuel nxt
    return rest ++ [current]

/-- `shorten_optimal(lookup, string)`: build the rewrite graph, run the
search from `start` with `pred = {start: None}` and `dist = {start: 0}`,
reconstruct the path ending at `end`, drop the two sentinels and concatenate
the node values (`''.join(n.value for n in path[1:-1])`).  The same fuel
bounds the search loop and the reconstruction loop. -/
def shorten_optimal (fuel : Nat) (lookup : List (Str × List Str)) (string : Str) :
    Option Str := do
  let (g, start, endN, _) ← buildGraph lookup string
  let st ← bfsLoop g fuel ⟨[start], [(start, 0)], [(start, none)]⟩
  let path ← walkPred st.pred fuel (some endN)
  let vals ← ((path.drop 1).dropLast).mapM (fun id => do
    let v ← g.nodes.get? id
    v)
  return vals.flatten

/-- `create_lookup(parsed)`: invert the parsed facts into a map from each
normalized output string to the list of single-code-point source strings
producing it, in insertion order. -/
def create_lookup (parsed : List (Char × Str)) : List (Str × List Str) :=
  parsed.foldl (fun reverse kv =>
    let (key, value) := kv
    match getv reverse value with
    | none => reverse ++ [(value, [[key]])]
    | some cur => dictSet reverse value (cur ++ [[key]])) []

/-- Body of the `for shortcut in shortcuts` loop of `optimize`: ignore
shortcuts not strictly shorter than `long`; otherwise start the entry,
restart it when strictly shorter than the current minimum, or append on a
tie.  The inner `[]` case is unreachable (stored lists are never empty;
Python would raise `IndexError` on `optimized[long][0]`). -/
def optInner (long : Str) (optimized : List (Str × List Str)) (shortcut : Str) :
    List (Str × List Str) :=
  if shortcut.length < long.length then
    match getv optimized long with
    | none => dictSet optimized long [shortcut]
    | some cur =>
      match cur with
      | [] => optimized
      | c0 :: _ =>
        if shortcut.length < c0.length then dictSet optimized long [shortcut]
        else if shortcut.length = c0.length then
          dictSet optimized long (cur ++ [shortcut])
        else optimized
  else optimized

/-- Body of the `for long, shortcuts in lookup.items()` loop of `optimize`. -/
def optEntry (optimized : List (Str × List Str)) (entry : Str × List Str) :
    List (Str × List Str) :=
  entry.2.foldl (optInner entry.1) optimized

/-- `optimize(lookup)`: for each `(long, shortcuts)` entry keep, among the
shortcuts strictly shorter than `long`, exactly those of minimal length (in
first-seen order), dropping the key when none qualifies. -/
def optimize (lookup : List (Str × List Str)) : List (Str × List Str) :=
  lookup.foldl optEntry []

/-- Modelled from the spec: the one-step "mapped" relation of §4.1–4.2 —
replace every code point that has a mapping fact by its output sequence,
leave the rest unchanged.  The repository itself contains no normalizer;
this is the normalization process the spec's round-trip property refers to. -/
def mappedStep (parsed : List (Char × Str)) (s : Str) : Str :=
  s.foldr (fun c acc => ((getv parsed c).getD [c]) ++ acc) []

/-- Modelled from the spec: repeatedly apply `mappedStep` until a fixpoint
is reached (with fuel; `none` when the fuel runs out first). -/
def normalizeFix (fuel : Nat) (parsed : List (Char × Str)) (s : Str) : Option Str :=
  match fuel with
  | 0 => none
  | fuel + 1 =>
    let s' := mappedStep parsed s
    if s' = s then some s else normalizeFix fuel parsed s'

/-- `b` is a direct successor of `a` in `g`. -/
def isEdge (g : DAG) (a b : Nat) : Bool :=
  (g.successors a).contains b

/-- `chainFrom g a [b1, …, bk]` holds when `a → b1 → … → bk` is a directed
edge path in `g`. -/
def chainFrom (g : DAG) : Nat → List Nat → Bool
  | _, [] => true
  | a, b :: t => isEdge g a b && chainFrom g b t

/-- The synthetic optimized index of the spec's example scenario:
code point "x" normalizes to "ab". -/
def idxAB : List (Str × List Str) := [("ab".toList, ["x".toList])]

/-- The rewrite graph the code builds for `idxAB` and the target "cabcabc":
node 0 is `start`, nodes 1–7 the seven characters, node 8 `end`, and node 9
the single shortcut node holding "x" that the code shares between both
occurrences of "ab". -/
def cabcabcGraph : DAG :=
  { nodes := [none, some ['c'], some ['a'], some ['b'], some ['c'],
              some ['a'], some ['b'], some ['c'], none, some ['x']]
    edges_from := [(0, [1]), (1, [2, 9]), (2, [3]), (3, [4]), (4, [5, 9]),
                   (5, [6]), (6, [7]), (7, [8]), (9, [4, 7])]
    edges_to := [(1, [0]), (2, [1]), (3, [2]), (4, [3, 9]), (5, [4]),
                 (6, [5]), (7, [6, 9]), (8, [7]), (9, [1, 4])] }

example : pyFind "cabcabc".toList "ab".toList 0 = some 1 := by decide
example : pyFind "cabcabc".toList "ab".toList 2 = some 4 := by decide
example : pyFind "cabcabc".toList "ab".toList 5 = none := by decide

/-- C1: the claim fails on the code.  For the optimized index mapping "ab"
to "x" and the target "cabcabc" (occurrences of "ab" at positions 1 and 4),
`shorten_optimal`'s graph-construction phase creates exactly ONE shortcut
node (node 9) shared by both occurrences — not one node per occurrence —
and its edge sets are cross-linked: its predecessors are both occurrences'
entry nodes (1 and 4) and its successors both occurrences' exit nodes
(4 and 7), rather than two nodes with singleton predecessor/successor sets. -/
theorem occurrence_sharing_cabcabc :
    buildGraph idxAB "cabcabc".toList =
      some (cabcabcGraph, 0, 8, [1, 2, 3, 4, 5, 6, 7]) ∧
    (cabcabcGraph.nodes.filter (fun v => v = some ['x'])).length = 1 ∧
    cabcabcGraph.predecessors 9 = [1, 4] ∧
    cabcabcGraph.successors 9 = [4, 7] := by
  refine ⟨by decide, by decide, by decide, by decide⟩

/-- C4: the claim fails on the code.  The rewrite graph built for the index
mapping "ab" to "x" and the target "cabcabc" contains the directed cycle
`4 → 9 → 4` (character node 'c' at offset 3, and the shared shortcut node):
a directed edge path returns to its starting node, so the graph is not
acyclic. -/
theorem rewrite_graph_cycle_cabcabc :
    buildGraph idxAB "cabcabc".toList =
      some (cabcabcGraph, 0, 8, [1, 2, 3, 4, 5, 6, 7]) ∧
    chainFrom cabcabcGraph 4 [9, 4] = true := by
  refine ⟨by decide, by decide⟩

/-- C3: the claim fails on the code.  With the mapping fact `x ↦ aa` (so the
optimized index derived from it maps "aa" to "x"), the target "aaa" is
shortened to "x" — the shared shortcut node lets the search enter at the
first occurrence of "aa" (position 0) and exit at the second (position 1) —
but "x" normalizes back to "aa", not "aaa". -/
theorem shorten_optimal_roundtrip_violation :
    optimize (create_lookup [('x', "aa".toList)]) = [("aa".toList, ["x".toList])] ∧
    shorten_optimal 15 [("aa".toList, ["x".toList])] "aaa".toList =
      some "x".toList ∧
    normalizeFix 5 [('x', "aa".toList)] "x".toList = some "aa".toList ∧
    "aa".toList ≠ "aaa".toList := by
  refine ⟨by decide, ?_, by decide, by decide⟩
  simp [shorten_optimal, buildGraph, buildChain, shortcutStep, occLoop, pyFind, occursAt,
        pyGet, bfsLoop, bfsStep, bfsRelax, walkPred, getv, dictSet, adjAdd, DAG.add_node,
        DAG.add_edge, DAG.empty, DAG.predecessors, DAG.successors, List.foldlM, List.range,
        List.range.loop, List.find?, Option.bind, List.mapM, List.mapM.loop, chainStep]

/-- Whatever `bfsRelax` does to `dist` and `pred`, on success it extends the
queue by exactly the processed successor. -/
theorem bfsRelax_q {current : Nat} {st : BfsState} {succ : Nat} {st' : BfsState}
    (h : bfsRelax current st succ = some st') : st'.q = st.q ++ [succ] := by
  unfold bfsRelax at h
  cases hg : getv st.dist current with
  | none => rw [hg] at h; simp at h
  | some dc =>
    rw [hg] at h
    simp only [Option.bind_eq_bind, Option.some_bind, Option.pure_def,
      Option.some.injEq] at h
    subst h
    cases hgs : getv st.dist succ with
    | none => simp only [hgs]
    | some ds => simp only [hgs]; split <;> rfl

/-- Folding `bfsRelax` over a successor list appends that list to the queue. -/
theorem bfsFold_q (current : Nat) :
    ∀ (l : List Nat) (st st' : BfsState),
      l.foldlM (bfsRelax current) st = some st' → st'.q = st.q ++ l := by
  intro l
  induction l with
  | nil =>
    intro st st' h
    simp only [List.foldlM_nil, Option.pure_def, Option.some.injEq] at h
    subst h
    simp
  | cons a t ih =>
    intro st st' h
    rw [List.foldlM_cons] at h
    cases ha : bfsRelax current st a with
    | none => rw [ha] at h; simp at h
    | some st1 =>
      rw [ha] at h
      simp only [Option.bind_eq_bind, Option.some_bind] at h
      have ht := ih st1 st' h
      rw [ht, bfsRelax_q ha, List.append_assoc, List.singleton_append]

/-- A successful `bfsStep` pops the head of the queue and appends all its
successors. -/
theorem bfsStep_q {g : DAG} {st st' : BfsState} {cur : Nat} {rest : List Nat}
    (hq : st.q = cur :: rest) (h : bfsStep g st = some st') :
    st'.q = rest ++ g.successors cur := by
  unfold bfsStep at h
  rw [hq] at h
  have := bfsFold_q cur (g.successors cur) { st with q := rest } st' h
  simpa using this

/-- If every member of a set `C` of nodes has a successor in `C`, a queue
that contains a member of `C` can never become empty: the search loop always
exhausts its fuel.  This is how the Python `while` loop diverges. -/
theorem bfsLoop_trapped (g : DAG) (C : List Nat)
    (hgood : ∀ v ∈ C, ∃ w, w ∈ g.successors v ∧ w ∈ C) :
    ∀ (fuel : Nat) (st : BfsState), (∃ v, v ∈ st.q ∧ v ∈ C) →
      bfsLoop g fuel st = none := by
  intro fuel
  induction fuel with
  | zero =>
    rintro st ⟨v, hv, -⟩
    unfold bfsLoop
    rw [if_neg]
    intro he
    rw [List.isEmpty_iff] at he
    rw [he] at hv
    exact absurd hv (List.not_mem_nil v)
  | succ f ih =>
    rintro st ⟨v, hv, hvC⟩
    unfold bfsLoop
    rw [if_neg]
    · cases hstep : bfsStep g st with
      | none => simp [hstep]
      | some st' =>
        simp only [hstep, Option.bind_some]
        apply ih
        obtain ⟨cur, rest, hq⟩ : ∃ cur rest, st.q = cur :: rest := by
          cases hqe : st.q with
          | nil => rw [hqe] at hv; exact absurd hv (List.not_mem_nil v)
          | cons a t => exact ⟨a, t, rfl⟩
        have hq' := bfsStep_q hq hstep
        rw [hq] at hv
        rcases List.mem_cons.mp hv with hcur | hrest
        · subst hcur
          obtain ⟨w, hw, hwC⟩ := hgood v hvC
          exact ⟨w, by rw [hq']; exact List.mem_append_right rest hw, hwC⟩
        · exact ⟨v, by rw [hq']; exact List.mem_append_left _ hrest, hvC⟩
    · intro he
      rw [List.isEmpty_iff] at he
      rw [he] at hv
      exact absurd hv (List.not_mem_nil v)

/-- C2: the claim fails on the code.  On the spec's own example — optimized
index mapping "ab" to "x", target "cabcabc" — `shorten_optimal` does not
return "cxcxc": the shared shortcut node creates the cycle `4 → 9 → 4` in
the rewrite graph, the node set [0, 1, 2, 3, 4, 9] traps the queue (each of
its members re-enqueues another), and the search loop never terminates, no
matter how much fuel it is given. -/
theorem shorten_optimal_cabcabc_diverges (fuel : Nat) :
    shorten_optimal fuel idxAB "cabcabc".toList = none := by
  have hb : buildGraph idxAB "cabcabc".toList =
      some (cabcabcGraph, 0, 8, [1, 2, 3, 4, 5, 6, 7]) := by decide
  have hloop : bfsLoop cabcabcGraph fuel ⟨[0], [(0, 0)], [(0, none)]⟩ = none :=
    bfsLoop_trapped cabcabcGraph [0, 1, 2, 3, 4, 9] (by decide) fuel _
      ⟨0, by simp, by simp⟩
  unfold shorten_optimal
  rw [hb]
  simp only [Option.bind_eq_bind, Option.some_bind]
  rw [hloop]
  rfl

/-- C5: the claim fails on the code.  The breadth-first search of
`shorten_optimal` is not terminating for every input: on the rewrite graph
built for the index mapping "ab" to "x" and the target "cabcabc" (where
`end`, node 8, IS reachable from `start`, node 0 — witnessed by the
pass-through chain 0 → 1 → … → 8), the search loop started in the code's
initial state `q = [start]`, `dist = (start, 0)`, `pred = (start, None)`
exhausts any amount of fuel instead of finalizing nodes on first dequeue:
nodes are re-enqueued unboundedly around the cycle `4 → 9 → 4`. -/
theorem bfs_search_nonterminating_cabcabc (fuel : Nat) :
    buildGraph idxAB "cabcabc".toList =
      some (cabcabcGraph, 0, 8, [1, 2, 3, 4, 5, 6, 7]) ∧
    chainFrom cabcabcGraph 0 [1, 2, 3, 4, 5, 6, 7, 8] = true ∧
    bfsLoop cabcabcGraph fuel ⟨[0], [(0, 0)], [(0, none)]⟩ = none := by
  refine ⟨by decide, by decide, ?_⟩
  exact bfsLoop_trapped cabcabcGraph [0, 1, 2, 3, 4, 9] (by decide) fuel _
    ⟨0, by simp, by simp⟩

theorem getv_dictSet {κ : Type} [DecidableEq κ] {α : Type}
    (m : List (κ × α)) (k : κ) (v : α) (k2 : κ) :
    getv (dictSet m k v) k2 = if k = k2 then some v else getv m k2 := by
  induction m with
  | nil => simp [dictSet, getv]
  | cons hd t ih =>
    obtain ⟨a, b⟩ := hd
    by_cases hak : a = k
    · subst hak
      simp only [dictSet, if_pos rfl, getv]
      by_cases h : a = k2 <;> simp [h]
    · simp only [dictSet, if_neg hak, getv]
      by_cases hak2 : a = k2
      · subst hak2
        have hka : ¬ k = a := fun h => hak h.symm
        simp [hka]
      · simp [if_neg hak2, ih]

theorem dictSet_fresh {κ : Type} [DecidableEq κ] {α : Type}
    {m : List (κ × α)} {k : κ} (v : α) (h : getv m k = none) :
    dictSet m k v = m ++ [(k, v)] := by
  induction m with
  | nil => simp [dictSet]
  | cons hd t ih =>
    obtain ⟨a, b⟩ := hd
    simp only [getv] at h
    by_cases hak : a = k
    · simp [hak] at h
    · simp only [dictSet, if_neg hak, List.cons_append, List.cons.injEq, true_and]
      exact ih (by simpa [hak] using h)

theorem getv_append {κ : Type} [DecidableEq κ] {α : Type}
    (m1 m2 : List (κ × α)) (k : κ) :
    getv (m1 ++ m2) k =
      match getv m1 k with
      | some v => some v
      | none => getv m2 k := by
  induction m1 with
  | nil => simp [getv]
  | cons hd t ih =>
    obtain ⟨a, b⟩ := hd
    by_cases hak : a = k
    · simp [getv, hak]
    · simp [getv, hak, ih]

theorem getv_append_last {κ : Type} [DecidableEq κ] {α : Type}
    {m : List (κ × α)} {k : κ} (v : α) (h : getv m k = none) :
    getv (m ++ [(k, v)]) k = some v := by
  rw [getv_append, h]
  simp [getv]

theorem dictSet_append_last {κ : Type} [DecidableEq κ] {α : Type}
    {m : List (κ × α)} {k : κ} (v w : α) (h : getv m k = none) :
    dictSet (m ++ [(k, v)]) k w = m ++ [(k, w)] := by
  induction m with
  | nil => simp [dictSet]
  | cons hd t ih =>
    obtain ⟨a, b⟩ := hd
    simp only [getv] at h
    by_cases hak : a = k
    · simp [hak] at h
    · simp only [List.cons_append, dictSet, if_neg hak, List.cons.injEq, true_and]
      exact ih (by simpa [hak] using h)

/-- A stored optimized entry: non-empty, every shortcut of the same length
as the first, and that length strictly below `bound`. -/
def GoodValL (bound : Nat) (v : List Str) : Prop :=
  ∃ c0 t, v = c0 :: t ∧ c0.length < bound ∧ ∀ sc ∈ v, sc.length = c0.length

/-- Value-level replay of the inner loop of `optimize`: what the stored list
for a fixed key becomes after processing `scs`, starting from `cur`. -/
def selFold (bound : Nat) (cur : List Str) : List Str → List Str
  | [] => cur
  | sc :: rest =>
    if sc.length < bound then
      match cur with
      | [] => selFold bound [sc] rest
      | c0 :: _ =>
        if sc.length < c0.length then selFold bound [sc] rest
        else if sc.length = c0.length then selFold bound (cur ++ [sc]) rest
        else selFold bound cur rest
    else selFold bound cur rest

theorem selFold_of_good (bound : Nat) :
    ∀ (scs cur : List Str), GoodValL bound cur →
      GoodValL bound (selFold bound cur scs) := by
  intro scs
  induction scs with
  | nil => intro cur h; simpa [selFold] using h
  | cons sc rest ih =>
    intro cur hcur
    obtain ⟨c0, t, rfl, hlt, hall⟩ := hcur
    by_cases hsc : sc.length < bound
    · by_cases h1 : sc.length < c0.length
      · simp only [selFold, if_pos hsc, if_pos h1]
        exact ih [sc] ⟨sc, [], rfl, hsc, by simp⟩
      · by_cases h2 : sc.length = c0.length
        · simp only [selFold, if_pos hsc, if_neg h1, if_pos h2]
          refine ih (c0 :: t ++ [sc]) ⟨c0, t ++ [sc], by simp, hlt, ?_⟩
          intro x hx
          simp at hx
          rcases hx with rfl | hx | rfl
          · rfl
          · exact hall x (List.mem_cons_of_mem _ hx)
          · exact h2
        · simp only [selFold, if_pos hsc, if_neg h1, if_neg h2]
          exact ih (c0 :: t) ⟨c0, t, rfl, hlt, hall⟩
    · simp only [selFold, if_neg hsc]
      exact ih (c0 :: t) ⟨c0, t, rfl, hlt, hall⟩

theorem selFold_nil_or_good (bound : Nat) :
    ∀ (scs : List Str),
      selFold bound [] scs = [] ∨ GoodValL bound (selFold bound [] scs) := by
  intro scs
  induction scs with
  | nil => exact Or.inl rfl
  | cons sc rest ih =>
    by_cases hsc : sc.length < bound
    · simp only [selFold, if_pos hsc]
      exact Or.inr (selFold_of_good bound rest [sc] ⟨sc, [], rfl, hsc, by simp⟩)
    · simp only [selFold, if_neg hsc]
      exact ih

theorem getv_eq_none_iff {κ : Type} [DecidableEq κ] {α : Type}
    (m : List (κ × α)) (k : κ) :
    getv m k = none ↔ k ∉ m.map Prod.fst := by
  induction m with
  | nil => simp [getv]
  | cons hd t ih =>
    obtain ⟨a, b⟩ := hd
    by_cases hak : a = k
    · subst hak
      simp [getv]
    · simp [getv, hak, ih, Ne.symm hak]

theorem keys_dictSet_mem {κ : Type} [DecidableEq κ] {α : Type}
    {m : List (κ × α)} {k : κ} {w : α} (v : α) (h : getv m k = some w) :
    (dictSet m k v).map Prod.fst = m.map Prod.fst := by
  induction m with
  | nil => simp [getv] at h
  | cons hd t ih =>
    obtain ⟨a, b⟩ := hd
    by_cases hak : a = k
    · subst hak
      simp [dictSet]
    · simp only [getv, if_neg hak] at h
      simp [dictSet, if_neg hak, ih h]

theorem mem_getv_of_nodupKeys {κ : Type} [DecidableEq κ] {α : Type} :
    ∀ {m : List (κ × α)} {k : κ} {v : α},
      (m.map Prod.fst).Nodup → (k, v) ∈ m → getv m k = some v := by
  intro m
  induction m with
  | nil => intro k v _ h; exact absurd h (List.not_mem_nil _)
  | cons hd t ih =>
    intro k v hnd hm
    obtain ⟨a, b⟩ := hd
    simp only [List.map_cons, List.nodup_cons] at hnd
    rcases List.mem_cons.mp hm with heq | hm
    · obtain ⟨rfl, rfl⟩ := Prod.mk.injEq .. ▸ heq
      simp [getv]
    · have hak : a ≠ k := by
        rintro rfl
        exact hnd.1 (List.mem_map.mpr ⟨(a, v), hm, rfl⟩)
      simp [getv, hak, ih hnd.2 hm]

/-- Mid-fold characterization of the inner loop of `optimize` for one key,
once the key has its first stored value: the fold only rewrites that value,
exactly as `selFold` replays it. -/
theorem optInner_char (long : Str) :
    ∀ (scs : List Str) (acc : List (Str × List Str)) (cur : List Str),
      getv acc long = none → GoodValL long.length cur →
      scs.foldl (optInner long) (acc ++ [(long, cur)]) =
        acc ++ [(long, selFold long.length cur scs)] := by
  intro scs
  induction scs with
  | nil => intro acc cur _ _; simp [selFold]
  | cons sc rest ih =>
    intro acc cur hacc hcur
    obtain ⟨c0, t0, rfl, hlt, hall⟩ := hcur
    have hsome : getv (acc ++ [(long, c0 :: t0)]) long = some (c0 :: t0) :=
      getv_append_last _ hacc
    rw [List.foldl_cons]
    by_cases hsc : sc.length < long.length
    · by_cases h1 : sc.length < c0.length
      · have hstep : optInner long (acc ++ [(long, c0 :: t0)]) sc =
            acc ++ [(long, [sc])] := by
          unfold optInner
          rw [if_pos hsc, hsome]
          simp only [if_pos h1]
          exact dictSet_append_last _ _ hacc
        rw [hstep]
        simp only [selFold, if_pos hsc, if_pos h1]
        exact ih acc [sc] hacc ⟨sc, [], rfl, hsc, by simp⟩
      · by_cases h2 : sc.length = c0.length
        · have hstep : optInner long (acc ++ [(long, c0 :: t0)]) sc =
              acc ++ [(long, c0 :: t0 ++ [sc])] := by
            unfold optInner
            rw [if_pos hsc, hsome]
            simp only [if_neg h1, if_pos h2]
            exact dictSet_append_last _ _ hacc
          rw [hstep]
          simp only [selFold, if_pos hsc, if_neg h1, if_pos h2]
          refine ih acc (c0 :: t0 ++ [sc]) hacc ⟨c0, t0 ++ [sc], by simp, hlt, ?_⟩
          intro x hx
          simp at hx
          rcases hx with rfl | hx | rfl
          · rfl
          · exact hall x (List.mem_cons_of_mem _ hx)
          · exact h2
        · have hstep : optInner long (acc ++ [(long, c0 :: t0)]) sc =
              acc ++ [(long, c0 :: t0)] := by
            unfold optInner
            rw [if_pos hsc, hsome]
            simp only [if_neg h1, if_neg h2]
          rw [hstep]
          simp only [selFold, if_pos hsc, if_neg h1, if_neg h2]
          exact ih acc (c0 :: t0) hacc ⟨c0, t0, rfl, hlt, hall⟩
    · have hstep : optInner long (acc ++ [(long, c0 :: t0)]) sc =
          acc ++ [(long, c0 :: t0)] := by
        unfold optInner
        rw [if_neg hsc]
      rw [hstep]
      simp only [selFold, if_neg hsc]
      exact ih acc (c0 :: t0) hacc ⟨c0, t0, rfl, hlt, hall⟩

/-- Characterization of one entry of the outer loop of `optimize` on a key
not yet present: either nothing qualifies and the accumulator is unchanged,
or the selected minimal-length shortcuts are appended under that key. -/
theorem optEntry_fresh (k : Str) :
    ∀ (scs : List Str) (acc : List (Str × List Str)),
      getv acc k = none →
      scs.foldl (optInner k) acc =
        match selFold k.length [] scs with
        | [] => acc
        | v => acc ++ [(k, v)] := by
  intro scs
  induction scs with
  | nil => intro acc _; simp [selFold]
  | cons sc rest ih =>
    intro acc hacc
    rw [List.foldl_cons]
    by_cases hsc : sc.length < k.length
    · have hstep : optInner k acc sc = acc ++ [(k, [sc])] := by
        unfold optInner
        rw [if_pos hsc, hacc]
        exact dictSet_fresh _ hacc
      rw [hstep, optInner_char k rest acc [sc] hacc ⟨sc, [], rfl, hsc, by simp⟩]
      obtain ⟨c0, t0, hv, -, -⟩ :=
        selFold_of_good k.length rest [sc] ⟨sc, [], rfl, hsc, by simp⟩
      simp only [selFold, if_pos hsc, hv]
    · have hstep : optInner k acc sc = acc := by
        unfold optInner
        rw [if_neg hsc]
      rw [hstep]
      simp only [selFold, if_neg hsc]
      exact ih acc hacc

/-- Invariant of the `optimize` accumulator: keys are distinct (it is a
Python dict), and every stored value is a non-empty list of equal-length
shortcuts, all strictly shorter than the key. -/
def OptInv (m : List (Str × List Str)) : Prop :=
  (m.map Prod.fst).Nodup ∧ ∀ k v, getv m k = some v → GoodValL k.length v

theorem optInner_inv (long sc : Str) (m : List (Str × List Str))
    (h : OptInv m) : OptInv (optInner long m sc) := by
  obtain ⟨hnd, hval⟩ := h
  unfold optInner
  by_cases hsc : sc.length < long.length
  · rw [if_pos hsc]
    cases hm : getv m long with
    | none =>
      rw [dictSet_fresh _ hm]
      constructor
      · simp only [List.map_append, List.map_cons, List.map_nil]
        rw [List.nodup_append]
        refine ⟨hnd, List.nodup_singleton _, ?_⟩
        intro a ha hb
        simp only [List.mem_singleton] at hb
        rw [hb] at ha
        exact (getv_eq_none_iff m long).mp hm ha
      · intro k v hk
        rw [getv_append] at hk
        cases hk2 : getv m k with
        | some w =>
          rw [hk2] at hk
          obtain rfl : w = v := by simpa using hk
          exact hval k _ hk2
        | none =>
          rw [hk2] at hk
          have hk3 : getv [(long, [sc])] k = some v := hk
          simp only [getv] at hk3
          by_cases hlk : long = k
          · subst hlk
            rw [if_pos rfl] at hk3
            obtain rfl : [sc] = v := by simpa using hk3
            exact ⟨sc, [], rfl, hsc, by simp⟩
          · rw [if_neg hlk] at hk3
            simp at hk3
    | some cur =>
      have hcur := hval long cur hm
      obtain ⟨c0, t0, rfl, hlt, hall⟩ := hcur
      show OptInv (if sc.length < c0.length then dictSet m long [sc]
        else if sc.length = c0.length then dictSet m long ((c0 :: t0) ++ [sc]) else m)
      have hkeys : ∀ w, (dictSet m long w).map Prod.fst = m.map Prod.fst :=
        fun w => keys_dictSet_mem w hm
      have hafter : ∀ (w : List Str), GoodValL long.length w →
          OptInv (dictSet m long w) := by
        intro w hw
        refine ⟨by rw [hkeys]; exact hnd, ?_⟩
        intro k v hk
        rw [getv_dictSet] at hk
        by_cases hlk : long = k
        · subst hlk
          rw [if_pos rfl] at hk
          obtain rfl : w = v := by simpa using hk
          exact hw
        · rw [if_neg hlk] at hk
          exact hval k v hk
      by_cases h1 : sc.length < c0.length
      · rw [if_pos h1]
        exact hafter [sc] ⟨sc, [], rfl, hsc, by simp⟩
      · rw [if_neg h1]
        by_cases h2 : sc.length = c0.length
        · rw [if_pos h2]
          refine hafter (c0 :: t0 ++ [sc]) ⟨c0, t0 ++ [sc], by simp, hlt, ?_⟩
          intro x hx
          simp at hx
          rcases hx with rfl | hx | rfl
          · rfl
          · exact hall x (List.mem_cons_of_mem _ hx)
          · exact h2
        · rw [if_neg h2]
          exact ⟨hnd, hval⟩
  · rw [if_neg hsc]
    exact ⟨hnd, hval⟩

theorem optEntry_inv (e : Str × List Str) :
    ∀ (m : List (Str × List Str)), OptInv m → OptInv (optEntry m e) := by
  obtain ⟨k, scs⟩ := e
  unfold optEntry
  simp only
  induction scs with
  | nil => intro m h; exact h
  | cons sc rest ih =>
    intro m h
    rw [List.foldl_cons]
    exact ih (optInner k m sc) (optInner_inv k sc m h)

theorem optimize_inv (lookup : List (Str × List Str)) : OptInv (optimize lookup) := by
  unfold optimize
  have : ∀ (l : List (Str × List Str)) (m : List (Str × List Str)),
      OptInv m → OptInv (l.foldl optEntry m) := by
    intro l
    induction l with
    | nil => intro m h; exact h
    | cons e rest ih =>
      intro m h
      rw [List.foldl_cons]
      exact ih (optEntry m e) (optEntry_inv e m h)
  exact this lookup [] ⟨List.nodup_nil, by intro k v hk; simp [getv] at hk⟩

theorem selFold_run (bound : Nat) (c0 : Str) :
    ∀ (t d : List Str), (∀ x ∈ t, x.length = c0.length) → c0.length < bound →
      selFold bound (c0 :: d) t = c0 :: (d ++ t) := by
  intro t
  induction t with
  | nil => intro d _ _; simp [selFold]
  | cons x rest ih =>
    intro d hall hlt
    have hx : x.length = c0.length := hall x (List.mem_cons_self x rest)
    have hxb : x.length < bound := hx ▸ hlt
    have hx1 : ¬ x.length < c0.length := by omega
    simp only [selFold, if_pos hxb, if_neg hx1, if_pos hx, List.cons_append]
    rw [ih (d ++ [x]) (fun y hy => hall y (List.mem_cons_of_mem _ hy)) hlt]
    simp

/-- A stored optimized value is a fixpoint of the per-key selection. -/
theorem selFold_id (bound : Nat) (v : List Str) (h : GoodValL bound v) :
    selFold bound [] v = v := by
  obtain ⟨c0, t0, rfl, hlt, hall⟩ := h
  simp only [selFold, if_pos hlt]
  rw [selFold_run bound c0 t0 [] (fun y hy => hall y (List.mem_cons_of_mem _ hy)) hlt]
  simp

/-- Running the outer loop of `optimize` over entries that already satisfy
the optimized-index invariant reproduces them verbatim. -/
theorem foldl_optEntry_self :
    ∀ (l : List (Str × List Str)) (acc : List (Str × List Str)),
      (∀ e ∈ l, GoodValL e.1.length e.2) →
      (∀ e ∈ l, getv acc e.1 = none) →
      (l.map Prod.fst).Nodup →
      l.foldl optEntry acc = acc ++ l := by
  intro l
  induction l with
  | nil => intro acc _ _ _; simp
  | cons e rest ih =>
    intro acc hgood hfresh hnd
    obtain ⟨k, v⟩ := e
    have hg : GoodValL k.length v := hgood (k, v) (List.mem_cons_self _ _)
    have hf : getv acc k = none := hfresh (k, v) (List.mem_cons_self _ _)
    rw [List.foldl_cons]
    have hstep : optEntry acc (k, v) = acc ++ [(k, v)] := by
      unfold optEntry
      simp only
      rw [optEntry_fresh k v acc hf, selFold_id k.length v hg]
      obtain ⟨c0, t0, rfl, -, -⟩ := hg
      rfl
    rw [hstep]
    simp only [List.map_cons, List.nodup_cons] at hnd
    rw [ih (acc ++ [(k, v)]) (fun x hx => hgood x (List.mem_cons_of_mem _ hx))
      ?_ hnd.2]
    · simp
    · intro x hx
      rw [getv_append, hfresh x (List.mem_cons_of_mem _ hx)]
      have hxk : ¬ k = x.1 := by
        intro hk
        exact hnd.1 (List.mem_map.mpr ⟨x, hx, hk.symm⟩)
      simp [getv, hxk]

/-- C9: confirmed.  `optimize` is idempotent: every entry of an optimized
index stores a non-empty list of equal-length shortcuts strictly shorter
than its key, and re-running `optimize` reproduces each such entry
verbatim, so running it twice equals running it once. -/
theorem optimize_idempotent (lookup : List (Str × List Str)) :
    optimize (optimize lookup) = optimize lookup := by
  obtain ⟨hnd, hval⟩ := optimize_inv lookup
  have : optimize (optimize lookup) = [] ++ optimize lookup := by
    unfold optimize
    refine foldl_optEntry_self _ [] ?_ (by intro e _; rfl) hnd
    intro e he
    exact hval e.1 e.2 (mem_getv_of_nodupKeys hnd (by simpa using he))
  simpa using this

/-- Python's `re` whitespace class `\s` over `str` (the characters for which
`str.isspace()` holds): ASCII whitespace, the C1 separators, and the Unicode
space characters. -/
def isPySpace (c : Char) : Bool :=
  c ∈ [' ', '\t', '\n', '\x0b', '\x0c', '\r',
       '\x1c', '\x1d', '\x1e', '\x1f', '\x85', '\xa0',
       '\u1680', '\u2000', '\u2001', '\u2002', '\u2003', '\u2004', '\u2005',
       '\u2006', '\u2007', '\u2008', '\u2009', '\u200a', '\u2028', '\u2029',
       '\u202f', '\u205f', '\u3000']

/-- The character class `[0-9A-F]` of the table regex. -/
def isHexU (c : Char) : Bool :=
  ('0' ≤ c ∧ c ≤ '9') ∨ ('A' ≤ c ∧ c ≤ 'F')

/-- The character class `[^;#]` of the table regex. -/
def isStatusChar (c : Char) : Bool :=
  ¬(c = ';' ∨ c = '#')

/-- The trailing `#.+$` of the table regex: a hash, then at least one
character, where `.` does not match a newline and `$` also matches just
before a single trailing newline. -/
def hashTail (r : Str) : Bool :=
  match r with
  | '#' :: rest =>
    let body := rest.takeWhile (fun c => c ≠ '\n')
    let left := rest.dropWhile (fun c => c ≠ '\n')
    ¬body.isEmpty ∧ (left = [] ∨ left = ['\n'])
  | _ => false

/-- The capture group `((?: [0-9A-F]{4,})+)` of the table regex followed by
`\s+#.+$`: one or more space-plus-hex-run blocks (greedy, trying a further
block first and only then closing the group), then mandatory whitespace and
the comment.  Returns the text captured by the group.  Maximal munch for the
hex run and the whitespace run is forced, because the characters that may
follow each run are disjoint from the run's own class.  `fuel` only bounds
the recursion depth; every block consumes at least one character, so
`r.length + 1` always suffices. -/
def mapIters (fuel : Nat) (r : Str) : Option Str :=
  match fuel with
  | 0 => none
  | fuel + 1 =>
    match r with
    | ' ' :: r2 =>
      let h := r2.takeWhile isHexU
      let r3 := r2.dropWhile isHexU
      if h.length < 4 then none
      else
        match mapIters fuel r3 with
        | some g => some (' ' :: (h ++ g))
        | none =>
          let sp := r3.takeWhile isPySpace
          let r4 := r3.dropWhile isPySpace
          if sp.isEmpty then none
          else if hashTail r4 then some (' ' :: h) else none
    | _ => none

/-- The part of the table regex after the status group:
`\s+(?:;((?: [0-9A-F]{4,})+)\s+)?#.+$`.  Returns the optional capture of the
output-codepoints group.  When a `;` follows the whitespace the optional
group is committed: if it fails, the fallback of skipping it would require a
`#` where the `;` stands, which also fails. -/
def lineTail (r : Str) : Option (Option Str) :=
  let sp := r.takeWhile isPySpace
  let r1 := r.dropWhile isPySpace
  if sp.isEmpty then none
  else
    match r1 with
    | ';' :: r2 => (mapIters (r2.length + 1) r2).map some
    | _ => if hashTail r1 then some none else none

/-- The lazy status group `([^;#]+?)` of the table regex: consume one
status character at a time and, after each, first try to match the rest of
the line; extend the status only when that fails.  Returns the status text
and the optional output capture. -/
def statusScan (acc : Str) (r : Str) : Option (Str × Option Str) :=
  match r with
  | [] => none
  | c :: r2 =>
    if isStatusChar c then
      let acc2 := acc ++ [c]
      match lineTail r2 with
      | some g3 => some (acc2, g3)
      | none => statusScan acc2 r2
    else none

/-- `re.match` of the table-line regex
`^([0-9A-F]{4,}(?:\.\.[0-9A-F]{4,})?)\s+;\s+([^;#]+?)\s+(?:;((?: [0-9A-F]{4,})+)\s+)?#.+$`
against one line, returning the three captures (code-point-or-range text,
raw status text, optional output-codepoints text).  The `{4,}` runs munch
maximally (nothing that may follow them is a hex digit), and the optional
range suffix is committed when the two dots are present (otherwise `\s+`
would have to match a dot).  Sole deliberate divergence from `re.match`: a
match whose status group consists entirely of whitespace — reachable only by
backtracking the `\s+` before the status — is reported as no match; such
lines are skipped by `parse_table` in both readings because their stripped
status is empty and so never equal to `mapped`. -/
def matchLine (line : Str) : Option (Str × Str × Option Str) :=
  let h1 := line.takeWhile isHexU
  let r1 := line.dropWhile isHexU
  if h1.length < 4 then none
  else
    match r1 with
    | '.' :: '.' :: r3 =>
      let h2 := r3.takeWhile isHexU
      let r4 := r3.dropWhile isHexU
      if h2.length < 4 then none
      else matchAfterChars (h1 ++ '.' :: '.' :: h2) r4
    | _ => matchAfterChars h1 r1
where
  /-- `\s+;\s+` followed by the status group and the line tail. -/
  matchAfterChars (g1 : Str) (r : Str) : Option (Str × Str × Option Str) :=
    let sp1 := r.takeWhile isPySpace
    let r1 := r.dropWhile isPySpace
    if sp1.isEmpty then none
    else
      match r1 with
      | ';' :: r2 =>
        let sp2 := r2.takeWhile isPySpace
        let r3 := r2.dropWhile isPySpace
        if sp2.isEmpty then none
        else (statusScan [] r3).map (fun sg => (g1, sg.1, sg.2))
      | _ => none

/-- Python `table.split(sep)` for a single-character separator. -/
def splitOnChar (sep : Char) (s : Str) : List Str :=
  s.foldr (fun c acc =>
    if c = sep then [] :: acc
    else
      match acc with
      | h :: t => (c :: h) :: t
      | [] => [[c]]) [[]]

/-- Python `chars.split('..')`: greedy left-to-right split on the
two-character separator. -/
def splitOnDots : Str → List Str
  | [] => [[]]
  | '.' :: '.' :: rest => [] :: splitOnDots rest
  | c :: rest =>
    match splitOnDots rest with
    | h :: t => (c :: h) :: t
    | [] => [[c]]

/-- Python `'..' in chars`. -/
def containsDots (s : Str) : Bool :=
  match pyFind s ['.', '.'] 0 with
  | some _ => true
  | none => false

/-- Python `s.strip()`. -/
def pyStrip (s : Str) : Str :=
  ((s.dropWhile isPySpace).reverse.dropWhile isPySpace).reverse

/-- Value of an upper-case hexadecimal digit. -/
def hexVal (c : Char) : Nat :=
  if c ≤ '9' then c.toNat - '0'.toNat else c.toNat - 'A'.toNat + 10

/-- `int(code, 16)` for the regex-guaranteed upper-case hex digit strings. -/
def hexToNat (s : Str) : Nat :=
  s.foldl (fun a c => 16 * a + hexVal c) 0

/-- `int2unicode`: Python `chr(i)`.  (`Char.ofNat` returns a default
character for the surrogate range where Python would build a lone
surrogate; the mapping table's `mapped` entries never fall there.) -/
def int2unicode (i : Nat) : Char := Char.ofNat i

/-- `code2unicode`. -/
def code2unicode (code : Str) : Char := int2unicode (hexToNat code)

/-- The body of the `for line in lines` loop of `parse_table`: skip lines
the regex does not match and lines whose stripped status is not `mapped`;
expand a range to one entry per code point; `none` models Python's
`AttributeError` on a mapped line without an output group
(`parts[2].strip()` with `parts[2] = None`) and the `ValueError` of the
unreachable malformed-range unpacking. -/
def parseEntryLine (entries : List (Char × Str)) (line : Str) :
    Option (List (Char × Str)) :=
  match matchLine line with
  | none => some entries
  | some (chars, stateRaw, g3) =>
    let state := pyStrip stateRaw
    if state ≠ "mapped".toList then some entries
    else
      match g3 with
      | none => none
      | some mp =>
        let mapping := splitOnChar ' ' (pyStrip mp)
        let value : Str := mapping.map code2unicode
        if containsDots chars then
          match splitOnDots chars with
          | [a, b] =>
            let start := hexToNat a
            let stop := hexToNat b
            some (((List.range' start (stop + 1 - start)).map int2unicode).foldl
              (fun es ch => dictSet es ch value) entries)
          | _ => none
        else
          some ([code2unicode chars].foldl (fun es ch => dictSet es ch value) entries)

/-- `parse_table(table)`: split into lines, drop the first 11 lines
(`lines = lines[11:]`, the header strip), then fold the per-line parser
into the `entries` dict. -/
def parse_table (table : Str) : Option (List (Char × Str)) :=
  let lines := splitOnChar '\n' table
  let lines := lines.drop 11
  lines.foldlM parseEntryLine []

/-- A line in valid mapped-entry format: `A` maps to `a`. -/
def mappedLineA : Str := "0041 ; mapped ; 0061 # LATIN CAPITAL LETTER A".toList

example : matchLine mappedLineA =
    some ("0041".toList, "mapped".toList, some " 0061".toList) := by decide

/-- C10: confirmed.  `parse_table` drops `lines[0:11]` before matching
anything: the valid mapped-entry line `mappedLineA` alone (line 1 of its
table text) produces no mapping fact at all, while the same line preceded by
eleven newlines (making it line 12) produces the fact `A ↦ a`.  So a valid
mapped-entry line among the first 11 lines is silently discarded. -/
theorem parse_table_drops_first_eleven_lines :
    parse_table mappedLineA = some [] ∧
    parse_table (List.replicate 11 '\n' ++ mappedLineA) = some [('A', ['a'])] := by
  refine ⟨by decide, by decide⟩

theorem getv_map_off {α : Type} (f : Nat → α) (off : Nat) :
    ∀ (n k : Nat),
      getv ((List.range n).map fun i => (i + off, f i)) k =
        if off ≤ k ∧ k < n + off then some (f (k - off)) else none := by
  intro n
  induction n with
  | zero =>
    intro k
    simp only [List.range_zero, List.map_nil, getv]
    rw [if_neg (by omega)]
  | succ m ih =>
    intro k
    rw [List.range_succ, List.map_append, getv_append, ih]
    by_cases hk : off ≤ k ∧ k < m + off
    · have h2 : off ≤ k ∧ k < m + 1 + off := ⟨hk.1, by omega⟩
      rw [if_pos hk, if_pos h2]
    · rw [if_neg hk]
      simp only [List.map_cons, List.map_nil, getv]
      by_cases he : m + off = k
      · have h2 : off ≤ k ∧ k < m + 1 + off := by omega
        rw [if_pos he, if_pos h2]
        have hko : k - off = m := by omega
        rw [hko]
      · have h2 : ¬(off ≤ k ∧ k < m + 1 + off) := by omega
        rw [if_neg he, if_neg h2]

/-- The pass-through part of the rewrite graph for the target `s`: node 0 is
`start`, nodes `1 … s.length` the characters, node `s.length + 1` is `end`,
with the chain edges between consecutive nodes. -/
def chainDag (s : Str) : DAG :=
  { nodes := none :: s.map (fun c => some [c]) ++ [none]
    edges_from := (List.range (s.length + 1)).map fun i => (i, [i + 1])
    edges_to := (List.range (s.length + 1)).map fun i => (i + 1, [i]) }

/-- The chain part of `buildGraph` before `end` is added, after the prefix
`pref` of the target has been processed. -/
def chainPart (pref : Str) : DAG :=
  { nodes := none :: pref.map (fun c => some [c])
    edges_from := (List.range pref.length).map fun i => (i, [i + 1])
    edges_to := (List.range pref.length).map fun i => (i + 1, [i]) }

theorem getv_chainPart_from (pref : Str) (k : Nat) :
    getv (chainPart pref).edges_from k =
      if k < pref.length then some [k + 1] else none := by
  have h := getv_map_off (fun i => [i + 1]) 0 pref.length k
  simp only [Nat.add_zero, Nat.sub_zero, Nat.zero_le, true_and] at h
  exact h

theorem getv_chainPart_to (pref : Str) (k : Nat) :
    getv (chainPart pref).edges_to k =
      if 1 ≤ k ∧ k < pref.length + 1 then some [k - 1] else none := by
  exact getv_map_off (fun i => [i]) 1 pref.length k

/-- One step of the chain-building fold of `buildGraph`. -/
theorem chainFold_step (pref : Str) (c : Char) :
    chainStep (chainPart pref, List.range' 1 pref.length, pref.length) c =
      (chainPart (pref ++ [c]), List.range' 1 (pref.length + 1),
        pref.length + 1) := by
  unfold chainStep
  have hlen : (chainPart pref).nodes.length = pref.length + 1 := by
    simp [chainPart]
  have hf : ¬ pref.length < pref.length := lt_irrefl _
  have ht : ¬ (1 ≤ pref.length + 1 ∧ pref.length + 1 < pref.length + 1) := by
    omega
  simp only [DAG.add_node, DAG.add_edge, adjAdd, hlen]
  rw [getv_chainPart_from, if_neg hf, getv_chainPart_to, if_neg ht]
  show (DAG.mk ((chainPart pref).nodes ++ [some [c]])
      ((chainPart pref).edges_from ++ [(pref.length, [pref.length + 1])])
      ((chainPart pref).edges_to ++ [(pref.length + 1, [pref.length])]),
      List.range' 1 pref.length ++ [pref.length + 1],
      pref.length + 1) = _
  rw [List.range'_concat]
  simp [chainPart, List.range_succ, Nat.add_comm]

theorem buildChain_eq (s : Str) :
    buildChain s = (chainPart s, 0, List.range' 1 s.length, s.length) := by
  unfold buildChain
  dsimp only
  rw [show DAG.empty.add_node none = (chainPart ([] : Str), 0) from rfl]
  dsimp only
  have hfold : ∀ (cs : List Char) (pref : Str),
      cs.foldl chainStep
        (chainPart pref, List.range' 1 pref.length, pref.length) =
      (chainPart (pref ++ cs), List.range' 1 (pref ++ cs).length,
        (pref ++ cs).length) := by
    intro cs
    induction cs with
    | nil => intro pref; simp
    | cons c rest ih =>
      intro pref
      rw [List.foldl_cons, chainFold_step]
      have h1 : pref ++ c :: rest = (pref ++ [c]) ++ rest := by simp
      rw [h1]
      have h2 : (pref ++ [c]).length = pref.length + 1 := by simp
      rw [← h2]
      exact ih (pref ++ [c])
  have := hfold s []
  simp only [List.length_nil, List.nil_append] at this
  rw [show (List.range' 1 0 : List Nat) = [] from rfl] at this
  rw [this]

theorem occLoop_noMatch (f : Nat) (g : DAG) (n : Nat) (s long : Str)
    (cns : List Nat) (h : pyFind s long 0 = none) :
    occLoop (f + 1) g n s long cns 0 = some g := by
  unfold occLoop
  rw [h]

theorem shortcutFold_noMatch (s : Str) (cns : List Nat) :
    ∀ (idx : List (Str × List Str)) (g : DAG),
      (∀ e ∈ idx, e.2 ≠ []) → (∀ e ∈ idx, pyFind s e.1 0 = none) →
      ∃ extras, idx.foldlM (shortcutStep s cns) g =
        some ⟨g.nodes ++ extras, g.edges_from, g.edges_to⟩ := by
  intro idx
  induction idx with
  | nil =>
    intro g _ _
    exact ⟨[], by simp [List.foldlM]⟩
  | cons e rest ih =>
    intro g hne hnm
    obtain ⟨long, shortcuts⟩ := e
    obtain ⟨sc, scs, rfl⟩ : ∃ a t, shortcuts = a :: t := by
      cases shortcuts with
      | nil => exact absurd rfl (hne _ (List.mem_cons_self _ _))
      | cons a t => exact ⟨a, t, rfl⟩
    rw [List.foldlM_cons]
    have hstep : shortcutStep s cns g (long, sc :: scs) =
        some ⟨g.nodes ++ [some sc], g.edges_from, g.edges_to⟩ := by
      unfold shortcutStep
      simp only [List.head?_cons, Option.bind_eq_bind, Option.some_bind]
      have := occLoop_noMatch s.length
        ⟨g.nodes ++ [some sc], g.edges_from, g.edges_to⟩ g.nodes.length s long cns
        (hnm _ (List.mem_cons_self _ _))
      exact this
    rw [hstep]
    simp only [Option.bind_eq_bind, Option.some_bind]
    obtain ⟨extras, hrest⟩ := ih ⟨g.nodes ++ [some sc], g.edges_from, g.edges_to⟩
      (fun x hx => hne x (List.mem_cons_of_mem _ hx))
      (fun x hx => hnm x (List.mem_cons_of_mem _ hx))
    refine ⟨[some sc] ++ extras, ?_⟩
    rw [hrest]
    simp

theorem buildGraph_noMatch (idx : List (Str × List Str)) (s : Str)
    (hne : ∀ e ∈ idx, e.2 ≠ []) (hnm : ∀ e ∈ idx, pyFind s e.1 0 = none) :
    ∃ extras, buildGraph idx s =
      some (⟨(chainDag s).nodes ++ extras, (chainDag s).edges_from,
          (chainDag s).edges_to⟩,
        0, s.length + 1, List.range' 1 s.length) := by
  unfold buildGraph
  rw [buildChain_eq]
  dsimp only
  rw [show (chainPart s).add_node none =
      (⟨(chainPart s).nodes ++ [none], (chainPart s).edges_from,
        (chainPart s).edges_to⟩, s.length + 1) from by
    simp [DAG.add_node, chainPart]]
  dsimp only
  have hedge : DAG.add_edge
      ⟨(chainPart s).nodes ++ [none], (chainPart s).edges_from,
        (chainPart s).edges_to⟩ s.length (s.length + 1) = chainDag s := by
    unfold DAG.add_edge adjAdd
    dsimp only
    rw [getv_chainPart_from, if_neg (lt_irrefl _),
      getv_chainPart_to, if_neg (by omega)]
    unfold chainPart chainDag
    simp [List.range_succ]
  rw [hedge]
  obtain ⟨extras, hfold⟩ :=
    shortcutFold_noMatch s (List.range' 1 s.length) idx (chainDag s) hne hnm
  refine ⟨extras, ?_⟩
  rw [hfold]
  rfl

/-- `dist` after the chain search has finalized nodes `0 … i`. -/
def distL (i : Nat) : List (Nat × Nat) :=
  (List.range (i + 1)).map fun j => (j, j)

/-- `pred` after the chain search has finalized nodes `0 … i`. -/
def predL (i : Nat) : List (Nat × Option Nat) :=
  (List.range (i + 1)).map fun j => (j, if j = 0 then none else some (j - 1))

theorem getv_distL (i k : Nat) :
    getv (distL i) k = if k ≤ i then some k else none := by
  have h := getv_map_off (fun j => j) 0 (i + 1) k
  simp only [Nat.add_zero, Nat.sub_zero, Nat.zero_le, true_and] at h
  unfold distL
  rw [h]
  by_cases hk : k ≤ i
  · rw [if_pos (by omega), if_pos hk]
  · rw [if_neg (by omega), if_neg hk]

theorem getv_predL (i k : Nat) :
    getv (predL i) k =
      if k ≤ i then some (if k = 0 then none else some (k - 1)) else none := by
  have h := getv_map_off (fun j => if j = 0 then none else some (j - 1)) 0 (i + 1) k
  simp only [Nat.add_zero, Nat.sub_zero, Nat.zero_le, true_and] at h
  unfold predL
  rw [h]
  by_cases hk : k ≤ i
  · rw [if_pos (by omega), if_pos hk]
  · rw [if_neg (by omega), if_neg hk]

theorem distL_concat (i : Nat) : distL i ++ [(i + 1, i + 1)] = distL (i + 1) := by
  unfold distL
  conv_rhs => rw [List.range_succ]
  simp

theorem predL_concat (i : Nat) :
    predL i ++ [(i + 1, some i)] = predL (i + 1) := by
  unfold predL
  conv_rhs => rw [List.range_succ]
  simp

theorem bfsLoop_cons (g : DAG) (f : Nat) (st : BfsState) (h : st.q ≠ []) :
    bfsLoop g (f + 1) st = (bfsStep g st).bind (bfsLoop g f) := by
  conv_lhs => unfold bfsLoop
  rw [if_neg (by simpa [List.isEmpty_iff] using h)]

theorem bfsLoop_empty (g : DAG) (f : Nat) (st : BfsState) (h : st.q = []) :
    bfsLoop g f st = some st := by
  unfold bfsLoop
  rw [if_pos (by simpa [List.isEmpty_iff] using h)]

theorem bfsStep_chain (G : DAG) (n : Nat)
    (hsucc : ∀ i, G.successors i = if i < n + 1 then [i + 1] else [])
    (i : Nat) (hi : i < n + 1) :
    bfsStep G ⟨[i], distL i, predL i⟩ =
      some ⟨[i + 1], distL (i + 1), predL (i + 1)⟩ := by
  unfold bfsStep
  dsimp only
  rw [hsucc i, if_pos hi, List.foldlM_cons]
  have hrelax : bfsRelax i ⟨[], distL i, predL i⟩ (i + 1) =
      some ⟨[i + 1], distL (i + 1), predL (i + 1)⟩ := by
    unfold bfsRelax
    rw [show getv (⟨[], distL i, predL i⟩ : BfsState).dist i = some i from by
      dsimp only; rw [getv_distL, if_pos (le_refl i)]]
    simp only [Option.bind_eq_bind, Option.some_bind]
    rw [show getv (⟨[], distL i, predL i⟩ : BfsState).dist (i + 1) = none from by
      dsimp only; rw [getv_distL, if_neg (by omega)]]
    dsimp only
    rw [show dictSet (distL i) (i + 1) (i + 1) = distL (i + 1) from by
      rw [dictSet_fresh _ (by rw [getv_distL, if_neg (by omega)]), distL_concat]]
    rw [show dictSet (predL i) (i + 1) (some i) = predL (i + 1) from by
      rw [dictSet_fresh _ (by rw [getv_predL, if_neg (by omega)]), predL_concat]]
    rfl
  rw [hrelax]
  simp only [Option.bind_eq_bind, Option.some_bind, List.foldlM_nil]
  rfl

theorem bfsStep_chain_end (G : DAG) (n : Nat)
    (hsucc : ∀ i, G.successors i = if i < n + 1 then [i + 1] else []) :
    bfsStep G ⟨[n + 1], distL (n + 1), predL (n + 1)⟩ =
      some ⟨[], distL (n + 1), predL (n + 1)⟩ := by
  unfold bfsStep
  dsimp only
  rw [hsucc (n + 1), if_neg (lt_irrefl _)]
  rfl

theorem bfsLoop_chain (G : DAG) (n : Nat)
    (hsucc : ∀ i, G.successors i = if i < n + 1 then [i + 1] else []) :
    ∀ (fuel i : Nat), i ≤ n + 1 → n + 2 - i ≤ fuel →
      bfsLoop G fuel ⟨[i], distL i, predL i⟩ =
        some ⟨[], distL (n + 1), predL (n + 1)⟩ := by
  intro fuel
  induction fuel with
  | zero => intro i hi hf; omega
  | succ f ih =>
    intro i hi hf
    rcases Nat.lt_or_ge i (n + 1) with hlt | hge
    · rw [bfsLoop_cons _ _ _ (by simp), bfsStep_chain G n hsucc i hlt]
      simp only [Option.some_bind]
      exact ih (i + 1) (by omega) (by omega)
    · have hieq : i = n + 1 := by omega
      subst hieq
      rw [bfsLoop_cons _ _ _ (by simp), bfsStep_chain_end G n hsucc]
      simp only [Option.some_bind]
      exact bfsLoop_empty _ _ _ rfl

theorem walkPred_none (pred : List (Nat × Option Nat)) (f : Nat) :
    walkPred pred f none = some [] := by
  cases f <;> rfl

theorem walkPred_chain (n : Nat) :
    ∀ (i : Nat), i ≤ n + 1 → ∀ (fuel : Nat), i + 1 ≤ fuel →
      walkPred (predL (n + 1)) fuel (some i) = some (List.range (i + 1)) := by
  intro i
  induction i with
  | zero =>
    intro _ fuel hf
    cases fuel with
    | zero => omega
    | succ f =>
      unfold walkPred
      rw [getv_predL, if_pos (by omega)]
      have h0 : (if (0 : Nat) = 0 then (none : Option Nat) else some (0 - 1)) =
          none := rfl
      rw [h0]
      simp only [Option.bind_eq_bind, Option.some_bind]
      rw [walkPred_none]
      simp only [Option.some_bind, List.nil_append]
      rfl
  | succ j ih =>
    intro hi fuel hf
    cases fuel with
    | zero => omega
    | succ f =>
      unfold walkPred
      rw [getv_predL, if_pos (by omega), if_neg (by omega)]
      simp only [Option.bind_eq_bind, Option.some_bind, Nat.add_sub_cancel]
      rw [ih (by omega) f (by omega)]
      simp only [Option.some_bind]
      rw [← List.range_succ]
      rfl

theorem getv_chainDag_from (s : Str) (k : Nat) :
    getv (chainDag s).edges_from k =
      if k < s.length + 1 then some [k + 1] else none := by
  have h := getv_map_off (fun i => [i + 1]) 0 (s.length + 1) k
  simp only [Nat.add_zero, Nat.sub_zero, Nat.zero_le, true_and] at h
  exact h

theorem successors_chain (s : Str) (extras : List (Option Str)) (i : Nat) :
    DAG.successors
      ⟨(chainDag s).nodes ++ extras, (chainDag s).edges_from,
        (chainDag s).edges_to⟩ i =
      if i < s.length + 1 then [i + 1] else [] := by
  unfold DAG.successors
  dsimp only
  rw [getv_chainDag_from]
  by_cases hi : i < s.length + 1
  · rw [if_pos hi, if_pos hi]
    rfl
  · rw [if_neg hi, if_neg hi]
    rfl

theorem nodes_chain_value (s : Str) (extras : List (Option Str)) (i : Nat)
    (hh : i < s.length) :
    ((chainDag s).nodes ++ extras).get? (1 + i) =
      some (some [s.get ⟨i, hh⟩]) := by
  unfold chainDag
  dsimp only
  rw [show (1 + i) = i + 1 from Nat.add_comm 1 i]
  simp only [List.cons_append]
  rw [List.get?_cons_succ]
  rw [List.append_assoc, List.get?_append (by simpa using hh)]
  rw [List.get?_map]
  rw [List.get?_eq_get hh]
  rfl

/-- Evaluating the node values along consecutive chain ids yields the
characters of the corresponding part of the target. -/
theorem mapM_chain_values (nodes : List (Option Str)) :
    ∀ (cs : List Char) (off : Nat),
      (∀ (i : Nat) (hh : i < cs.length),
        nodes.get? (off + i) = some (some [cs.get ⟨i, hh⟩])) →
      (List.range' off cs.length).mapM
          (fun id => (nodes.get? id).bind fun v => v) =
        some (cs.map fun c => [c]) := by
  intro cs
  induction cs with
  | nil => intro off _; rfl
  | cons c rest ih =>
    intro off hval
    rw [show List.range' off (c :: rest).length =
      off :: List.range' (off + 1) rest.length from rfl]
    rw [List.mapM_cons]
    have h0 : nodes.get? (off + 0) = some (some [c]) := hval 0 (by simp)
    rw [Nat.add_zero] at h0
    have hrest := ih (off + 1) (fun i hh => by
      have := hval (i + 1) (by simpa using Nat.succ_lt_succ hh)
      rw [show off + (i + 1) = off + 1 + i from by omega] at this
      exact this)
    simp only [Option.bind_eq_bind, Option.some_bind, h0, hrest, Option.pure_def]
    rfl

theorem flatten_singletons (s : Str) : (s.map fun c => [c]).flatten = s := by
  induction s with
  | nil => rfl
  | cons c rest ih => simp [ih]

/-- Master lemma for the identity cases: when no key of the index occurs in
the target (and no stored shortcut list is empty, so that `shortcuts[0]`
does not raise), `shorten_optimal` returns the target unchanged, for any
fuel of at least `s.length + 2`. -/
theorem shorten_noMatch (idx : List (Str × List Str)) (s : Str) (fuel : Nat)
    (hne : ∀ e ∈ idx, e.2 ≠ [])
    (hnm : ∀ e ∈ idx, pyFind s e.1 0 = none)
    (hfuel : s.length + 2 ≤ fuel) :
    shorten_optimal fuel idx s = some s := by
  obtain ⟨extras, hbg⟩ := buildGraph_noMatch idx s hne hnm
  unfold shorten_optimal
  rw [hbg]
  simp only [Option.bind_eq_bind, Option.some_bind]
  rw [show (⟨[0], [(0, 0)], [(0, none)]⟩ : BfsState) =
    ⟨[0], distL 0, predL 0⟩ from rfl]
  rw [bfsLoop_chain _ s.length (successors_chain s extras) fuel 0
    (by omega) (by omega)]
  simp only [Option.some_bind]
  rw [walkPred_chain s.length (s.length + 1) (le_refl _) fuel (by omega)]
  simp only [Option.some_bind]
  rw [show (List.range (s.length + 1 + 1)).drop 1 =
      List.range' 1 (s.length + 1) from by
    rw [List.range_eq_range']
    rfl]
  rw [show (List.range' 1 (s.length + 1)).dropLast = List.range' 1 s.length from by
    rw [List.range'_concat, List.dropLast_concat]]
  rw [mapM_chain_values _ s 1 (fun i hh => nodes_chain_value s extras i hh)]
  simp only [Option.some_bind, Option.pure_def]
  rw [flatten_singletons]

theorem pyFind_none_of_noOcc (s long : Str)
    (h : ∀ p, p ≤ s.length → occursAt s long p = false) :
    pyFind s long 0 = none := by
  unfold pyFind
  rw [List.find?_eq_none]
  intro p hp
  rw [List.mem_range] at hp
  simp [h p (by omega)]

/-- C7: confirmed.  If no contiguous substring of the target equals any key
of the index (and the index satisfies the optimized-index invariant that no
stored shortcut list is empty, so `shortcuts[0]` does not raise), then
`shorten_optimal` returns the target unchanged, given fuel of at least
`s.length + 2` (the search dequeues each pass-through node once and the
reconstruction walks the same chain back). -/
theorem shorten_optimal_identity (idx : List (Str × List Str)) (s : Str)
    (fuel : Nat)
    (hne : ∀ e ∈ idx, e.2 ≠ [])
    (hnm : ∀ e ∈ idx, ∀ p, p ≤ s.length → occursAt s e.1 p = false)
    (hfuel : s.length + 2 ≤ fuel) :
    shorten_optimal fuel idx s = some s :=
  shorten_noMatch idx s fuel hne
    (fun e he => pyFind_none_of_noOcc s e.1 (hnm e he)) hfuel

/-- Witness for C7 at a concrete input: the index maps "ab" to "x" but the
target "zzz" contains no occurrence of "ab", so it is returned unchanged. -/
theorem shorten_optimal_identity_witness :
    shorten_optimal 5 idxAB "zzz".toList = some "zzz".toList :=
  shorten_optimal_identity idxAB "zzz".toList 5 (by decide) (by decide)
    (by decide)

/-- C8: confirmed.  The empty target string is valid input: for every index
whose keys are non-empty strings and whose shortcut lists are non-empty (the
optimized-index invariant), `shorten_optimal` on `""` builds the zero-length
chain `start → end` and returns `""`, given fuel of at least 2. -/
theorem shorten_optimal_empty (idx : List (Str × List Str)) (fuel : Nat)
    (hne : ∀ e ∈ idx, e.2 ≠ [])
    (hkey : ∀ e ∈ idx, e.1 ≠ [])
    (hfuel : 2 ≤ fuel) :
    shorten_optimal fuel idx [] = some [] :=
  shorten_noMatch idx [] fuel hne
    (fun e he => pyFind_none_of_noOcc [] e.1 (fun p _ => by
      have hk := hkey e he
      simp only [occursAt, List.drop_nil, List.take_nil]
      simpa using fun hcontra => hk hcontra))
    (by simpa using hfuel)

/-- Witness for C8 at a concrete input: the empty target with the index
mapping "ab" to "x" shortens to the empty string. -/
theorem shorten_optimal_empty_witness :
    shorten_optimal 2 idxAB [] = some [] :=
  shorten_optimal_empty idxAB 2 (by decide) (by decide) (by decide)

/-- Graph evolution that only adds edges (and possibly nodes elsewhere):
the edge relation can only grow. -/
def Pres (g g' : DAG) : Prop :=
  g'.nodes = g.nodes ∧ ∀ u b, b ∈ g.successors u → b ∈ g'.successors u

theorem Pres.refl (g : DAG) : Pres g g := ⟨rfl, fun _ _ h => h⟩

theorem Pres.trans {g1 g2 g3 : DAG} (h1 : Pres g1 g2) (h2 : Pres g2 g3) :
    Pres g1 g3 :=
  ⟨h2.1.trans h1.1, fun u b hb => h2.2 u b (h1.2 u b hb)⟩

theorem Pres.add_edge (g : DAG) (x y : Nat) : Pres g (g.add_edge x y) := by
  refine ⟨rfl, fun u b hb => ?_⟩
  unfold DAG.successors DAG.add_edge adjAdd at *
  dsimp only at *
  cases hx : getv g.edges_from x with
  | none =>
    rw [getv_append]
    cases hu : getv g.edges_from u with
    | none => rw [hu] at hb; simp at hb
    | some l => rw [hu] at hb; exact hb
  | some l =>
    rw [getv_dictSet]
    by_cases hxu : x = u
    · subst hxu
      rw [hx] at hb
      rw [if_pos rfl]
      simp only [Option.getD_some] at hb ⊢
      exact List.mem_append_left _ hb
    · rw [if_neg hxu]
      exact hb

theorem foldl_pres {α : Type} (f : DAG → α → DAG)
    (hf : ∀ g a, Pres g (f g a)) :
    ∀ (l : List α) (g : DAG), Pres g (l.foldl f g) := by
  intro l
  induction l with
  | nil => intro g; exact Pres.refl g
  | cons a t ih =>
    intro g
    rw [List.foldl_cons]
    exact (hf g a).trans (ih (f g a))

theorem occLoop_pres :
    ∀ (fuel : Nat) (g : DAG) (n : Nat) (s long : Str) (cns : List Nat)
      (sp : Nat) (g' : DAG),
      occLoop fuel g n s long cns sp = some g' → Pres g g' := by
  intro fuel
  induction fuel with
  | zero => intro g n s long cns sp g' h; simp [occLoop] at h
  | succ f ih =>
    intro g n s long cns sp g' h
    unfold occLoop at h
    cases hp : pyFind s long sp with
    | none =>
      rw [hp] at h
      obtain rfl : g = g' := by simpa using h
      exact Pres.refl g
    | some p =>
      simp only [hp, Option.bind_eq_bind] at h
      cases hsn : pyGet cns (p : Int) with
      | none => simp [hsn] at h
      | some start_node =>
        simp only [hsn, Option.some_bind] at h
        cases hen : pyGet cns ((p : Int) + long.length - 1) with
        | none => simp [hen] at h
        | some end_node =>
          simp only [hen, Option.some_bind] at h
          refine Pres.trans ?_ (ih _ _ _ _ _ _ _ h)
          exact foldl_pres _ (fun g1 from_node => foldl_pres
            (fun g2 to_node => (g2.add_edge from_node n).add_edge n to_node)
            (fun g2 to_node => (Pres.add_edge g2 from_node n).trans
              (Pres.add_edge _ n to_node)) _ g1) _ g

theorem mem_dictSet {κ : Type} [DecidableEq κ] {α : Type} :
    ∀ {m : List (κ × α)} {k : κ} {v : α} {e : κ × α},
      e ∈ dictSet m k v → e ∈ m ∨ e = (k, v) := by
  intro m
  induction m with
  | nil => intro k v e he; simp [dictSet] at he; exact Or.inr he
  | cons hd t ih =>
    intro k v e he
    obtain ⟨a, b⟩ := hd
    by_cases hak : a = k
    · subst hak
      rw [show dictSet ((a, b) :: t) a v = (a, v) :: t from by
        simp [dictSet]] at he
      rcases List.mem_cons.mp he with h1 | h1
      · exact Or.inr h1
      · exact Or.inl (List.mem_cons_of_mem _ h1)
    · rw [show dictSet ((a, b) :: t) k v = (a, b) :: dictSet t k v from by
        simp [dictSet, hak]] at he
      rcases List.mem_cons.mp he with h1 | h1
      · subst h1; exact Or.inl (List.mem_cons_self _ _)
      · rcases ih h1 with h | h
        · exact Or.inl (List.mem_cons_of_mem _ h)
        · exact Or.inr h

theorem mem_of_getv {κ : Type} [DecidableEq κ] {α : Type} :
    ∀ {m : List (κ × α)} {k : κ} {v : α}, getv m k = some v → (k, v) ∈ m := by
  intro m
  induction m with
  | nil => intro k v h; simp [getv] at h
  | cons hd t ih =>
    intro k v h
    obtain ⟨a, b⟩ := hd
    simp only [getv] at h
    by_cases hak : a = k
    · subst hak
      rw [if_pos rfl] at h
      obtain rfl : b = v := by simpa using h
      exact List.mem_cons_self _ _
    · rw [if_neg hak] at h
      exact List.mem_cons_of_mem _ (ih h)

/-- Every shortcut stored by `create_lookup` is a single code point. -/
theorem create_lookup_len1 (parsed : List (Char × Str)) :
    ∀ e ∈ create_lookup parsed, ∀ sc ∈ e.2, sc.length = 1 := by
  unfold create_lookup
  have : ∀ (l : List (Char × Str)) (acc : List (Str × List Str)),
      (∀ e ∈ acc, ∀ sc ∈ e.2, sc.length = 1) →
      ∀ e ∈ l.foldl (fun reverse kv =>
        let (key, value) := kv
        match getv reverse value with
        | none => reverse ++ [(value, [[key]])]
        | some cur => dictSet reverse value (cur ++ [[key]])) acc,
        ∀ sc ∈ e.2, sc.length = 1 := by
    intro l
    induction l with
    | nil => intro acc hacc; exact hacc
    | cons kv t ih =>
      intro acc hacc
      obtain ⟨key, value⟩ := kv
      rw [List.foldl_cons]
      apply ih
      dsimp only
      cases hg : getv acc value with
      | none =>
        intro e he
        rcases List.mem_append.mp he with he | he
        · exact hacc e he
        · simp only [List.mem_singleton] at he
          subst he
          intro sc hsc
          simp only [List.mem_singleton] at hsc
          subst hsc
          rfl
      | some cur =>
        intro e he
        rcases mem_dictSet he with he | he
        · exact hacc e he
        · subst he
          intro sc hsc
          rcases List.mem_append.mp hsc with hsc | hsc
          · exact hacc (value, cur) (by
              have : getv acc value = some cur := hg
              exact mem_of_getv this) sc hsc
          · simp only [List.mem_singleton] at hsc
            subst hsc
            rfl
  exact this parsed [] (by intro e he; simp at he)


/-- Every stored shortcut is a single code point. -/
def ValsLen1 (m : List (Str × List Str)) : Prop :=
  ∀ k v, getv m k = some v → ∀ sc ∈ v, sc.length = 1

theorem optInner_len1 (long sc : Str) (m : List (Str × List Str))
    (hsc : sc.length = 1) (h : ValsLen1 m) : ValsLen1 (optInner long m sc) := by
  unfold optInner
  by_cases hlt : sc.length < long.length
  · rw [if_pos hlt]
    cases hg : getv m long with
    | none =>
      intro k v hk
      rw [getv_dictSet] at hk
      by_cases hlk : long = k
      · rw [if_pos hlk] at hk
        obtain rfl : [sc] = v := by simpa using hk
        intro x hx
        simp only [List.mem_singleton] at hx
        subst hx
        exact hsc
      · rw [if_neg hlk] at hk
        exact h k v hk
    | some cur =>
      cases cur with
      | nil => exact h
      | cons c0 t0 =>
        have hcur := h long (c0 :: t0) hg
        show ValsLen1 (if sc.length < c0.length then dictSet m long [sc]
          else if sc.length = c0.length then dictSet m long ((c0 :: t0) ++ [sc])
          else m)
        have hone : ∀ (w : List Str), (∀ x ∈ w, x.length = 1) →
            ValsLen1 (dictSet m long w) := by
          intro w hw k v hk
          rw [getv_dictSet] at hk
          by_cases hlk : long = k
          · rw [if_pos hlk] at hk
            obtain rfl : w = v := by simpa using hk
            exact hw
          · rw [if_neg hlk] at hk
            exact h k v hk
        by_cases h1 : sc.length < c0.length
        · rw [if_pos h1]
          exact hone [sc] (by
            intro x hx
            simp only [List.mem_singleton] at hx
            subst hx
            exact hsc)
        · rw [if_neg h1]
          by_cases h2 : sc.length = c0.length
          · rw [if_pos h2]
            refine hone (c0 :: t0 ++ [sc]) ?_
            intro x hx
            simp at hx
            rcases hx with rfl | hx | rfl
            · exact hcur _ (List.mem_cons_self _ _)
            · exact hcur x (List.mem_cons_of_mem _ hx)
            · exact hsc
          · rw [if_neg h2]
            exact h
  · rw [if_neg hlt]
    exact h

theorem optimize_len1 (lookup : List (Str × List Str))
    (hl : ∀ e ∈ lookup, ∀ sc ∈ e.2, sc.length = 1) :
    ValsLen1 (optimize lookup) := by
  unfold optimize
  have hstep : ∀ (e : Str × List Str) (m : List (Str × List Str)),
      (∀ sc ∈ e.2, sc.length = 1) → ValsLen1 m → ValsLen1 (optEntry m e) := by
    intro e m he hm
    obtain ⟨k, scs⟩ := e
    unfold optEntry
    dsimp only at he ⊢
    have inner : ∀ (l : List Str) (m2 : List (Str × List Str)),
        (∀ sc ∈ l, sc.length = 1) → ValsLen1 m2 →
        ValsLen1 (l.foldl (optInner k) m2) := by
      intro l
      induction l with
      | nil => intro m2 _ hm2; exact hm2
      | cons sc rest ih =>
        intro m2 he2 hm2
        rw [List.foldl_cons]
        exact ih (optInner k m2 sc)
          (fun x hx => he2 x (List.mem_cons_of_mem _ hx))
          (optInner_len1 k sc m2 (he2 sc (List.mem_cons_self _ _)) hm2)
    exact inner scs m he hm
  have : ∀ (l : List (Str × List Str)) (m : List (Str × List Str)),
      (∀ e ∈ l, ∀ sc ∈ e.2, sc.length = 1) → ValsLen1 m →
      ValsLen1 (l.foldl optEntry m) := by
    intro l
    induction l with
    | nil => intro m _ hm; exact hm
    | cons e t ih =>
      intro m hl hm
      rw [List.foldl_cons]
      exact ih (optEntry m e) (fun x hx => hl x (List.mem_cons_of_mem _ hx))
        (hstep e m (hl e (List.mem_cons_self _ _)) hm)
  exact this lookup [] hl (by intro k v hk; simp [getv] at hk)

/-- Every entry of the optimized index derived from mapping facts stores
only single-code-point shortcuts. -/
theorem pipeline_len1 (parsed : List (Char × Str)) :
    ∀ e ∈ optimize (create_lookup parsed), ∀ sc ∈ e.2, sc.length = 1 :=
  fun e he =>
    optimize_len1 _ (create_lookup_len1 parsed) e.1 e.2
      (mem_getv_of_nodupKeys (optimize_inv _).1 (by simpa using he))

/-- `buildGraph` is: start from the pass-through chain graph, then run the
shortcut-insertion fold. -/
theorem buildGraph_unfold (idx : List (Str × List Str)) (s : Str) :
    buildGraph idx s =
      (idx.foldlM (shortcutStep s (List.range' 1 s.length)) (chainDag s)).bind
        (fun g => some (g, 0, s.length + 1, List.range' 1 s.length)) := by
  unfold buildGraph
  rw [buildChain_eq]
  dsimp only
  rw [show (chainPart s).add_node none =
      (⟨(chainPart s).nodes ++ [none], (chainPart s).edges_from,
        (chainPart s).edges_to⟩, s.length + 1) from by
    simp [DAG.add_node, chainPart]]
  dsimp only
  rw [show DAG.add_edge
      ⟨(chainPart s).nodes ++ [none], (chainPart s).edges_from,
        (chainPart s).edges_to⟩ s.length (s.length + 1) = chainDag s from by
    unfold DAG.add_edge adjAdd
    dsimp only
    rw [getv_chainPart_from, if_neg (lt_irrefl _),
      getv_chainPart_to, if_neg (by omega)]
    unfold chainPart chainDag
    simp [List.range_succ]]
  rfl

/-- Every node value of the graph is `None` or a string of length at most
one. -/
def NodesShort (g : DAG) : Prop :=
  ∀ v ∈ g.nodes, ∀ w, v = some w → w.length ≤ 1

theorem nodesShort_chainDag (s : Str) : NodesShort (chainDag s) := by
  intro v hv w hw
  unfold chainDag at hv
  dsimp only at hv
  rcases List.mem_cons.mp hv with h1 | h1
  · subst h1; simp at hw
  · rcases List.mem_append.mp h1 with h2 | h2
    · obtain ⟨c, -, rfl⟩ := List.mem_map.mp h2
      obtain rfl : [c] = w := by simpa using hw
      simp
    · simp only [List.mem_singleton] at h2
      subst h2
      simp at hw

theorem shortcutFold_facts (s : Str) (cns : List Nat) :
    ∀ (idx : List (Str × List Str)) (g g' : DAG),
      idx.foldlM (shortcutStep s cns) g = some g' →
      (∀ e ∈ idx, ∀ sc ∈ e.2, sc.length = 1) →
      NodesShort g →
      NodesShort g' ∧ ∀ u b, b ∈ g.successors u → b ∈ g'.successors u := by
  intro idx
  induction idx with
  | nil =>
    intro g g' h _ hN
    obtain rfl : g = g' := by simpa [List.foldlM] using h
    exact ⟨hN, fun _ _ hb => hb⟩
  | cons e rest ih =>
    intro g g' h hlen hN
    rw [List.foldlM_cons] at h
    cases hstep : shortcutStep s cns g e with
    | none => rw [hstep] at h; simp at h
    | some g1 =>
      rw [hstep] at h
      simp only [Option.bind_eq_bind, Option.some_bind] at h
      have hg1 : NodesShort g1 ∧ ∀ u b, b ∈ g.successors u → b ∈ g1.successors u := by
        obtain ⟨long, shortcuts⟩ := e
        unfold shortcutStep at hstep
        cases hhd : shortcuts.head? with
        | none => simp [hhd] at hstep
        | some sc =>
          simp only [hhd, Option.bind_eq_bind, Option.some_bind] at hstep
          have hpres := occLoop_pres (s.length + 1)
            ⟨g.nodes ++ [some sc], g.edges_from, g.edges_to⟩ g.nodes.length
            s long cns 0 g1 hstep
          obtain ⟨hnodes, hsucc⟩ := hpres
          constructor
          · intro v hv w hw
            rw [hnodes] at hv
            rcases List.mem_append.mp hv with h2 | h2
            · exact hN v h2 w hw
            · simp only [List.mem_singleton] at h2
              subst h2
              obtain rfl : sc = w := by simpa using hw
              have : sc ∈ shortcuts := by
                cases shortcuts with
                | nil => simp at hhd
                | cons a t =>
                  obtain rfl : a = sc := by simpa using hhd
                  exact List.mem_cons_self _ _
              rw [hlen (long, shortcuts) (List.mem_cons_self _ _) sc this]
          · intro u b hb
            exact hsucc u b hb
      obtain ⟨hN1, hmono1⟩ := hg1
      obtain ⟨hN2, hmono2⟩ := ih g1 g' h
        (fun x hx => hlen x (List.mem_cons_of_mem _ hx)) hN1
      exact ⟨hN2, fun u b hb => hmono2 u b (hmono1 u b hb)⟩

/-- The three possible outcomes of one relaxation: distance not improved
(state unchanged apart from the queue append), or successor unseen /
strictly improved (distance and predecessor rewritten, queue appended). -/
theorem bfsRelax_cases (cur : Nat) (acc : BfsState) (succ : Nat)
    (acc' : BfsState) (dc : Nat)
    (hcd : getv acc.dist cur = some dc)
    (h : bfsRelax cur acc succ = some acc') :
    (∃ ds, getv acc.dist succ = some ds ∧ ¬ dc + 1 < ds ∧
      acc' = ⟨acc.q ++ [succ], acc.dist, acc.pred⟩) ∨
    ((getv acc.dist succ = none ∨
        ∃ ds, getv acc.dist succ = some ds ∧ dc + 1 < ds) ∧
      acc' = ⟨acc.q ++ [succ], dictSet acc.dist succ (dc + 1),
        dictSet acc.pred succ (some cur)⟩) := by
  unfold bfsRelax at h
  rw [hcd] at h
  simp only [Option.bind_eq_bind, Option.some_bind, Option.pure_def,
    Option.some.injEq] at h
  cases hs : getv acc.dist succ with
  | none =>
    simp only [hs] at h
    exact Or.inr ⟨Or.inl rfl, h.symm⟩
  | some ds =>
    simp only [hs] at h
    by_cases hlt : dc + 1 < ds
    · rw [if_pos hlt] at h
      exact Or.inr ⟨Or.inr ⟨ds, rfl, hlt⟩, h.symm⟩
    · rw [if_neg hlt] at h
      exact Or.inl ⟨ds, rfl, hlt, h.symm⟩

/-- Invariant carried through the relaxation fold of one dequeued node
`cur` whose distance is `dc`; `processed` are the successors already
relaxed. -/
structure RInv (g : DAG) (cur dc : Nat) (processed : List Nat)
    (st : BfsState) : Prop where
  hq : ∀ v ∈ st.q, ∃ d, getv st.dist v = some d
  h0 : getv st.dist 0 = some 0
  hpd : ∀ v u, getv st.pred v = some (some u) →
    ∃ dv du, getv st.dist v = some dv ∧ getv st.dist u = some du ∧ du + 1 ≤ dv
  hcd : getv st.dist cur = some dc
  hpb : ∀ v ∈ processed, ∃ dv, getv st.dist v = some dv ∧ dv ≤ dc + 1
  hrx : ∀ u du, getv st.dist u = some du →
    u ∈ st.q ∨ u = cur ∨ ∀ v ∈ g.successors u,
      ∃ dv, getv st.dist v = some dv ∧ dv ≤ du + 1

theorem bfsRelax_rinv (g : DAG) (cur dc : Nat) (processed : List Nat)
    (acc acc' : BfsState) (succ : Nat)
    (h : bfsRelax cur acc succ = some acc')
    (hJ : RInv g cur dc processed acc) :
    RInv g cur dc (processed ++ [succ]) acc' := by
  rcases bfsRelax_cases cur acc succ acc' dc hJ.hcd h with
    ⟨ds, hs, hds, rfl⟩ | ⟨hchoice, rfl⟩
  · -- no update: only the queue grows
    refine ⟨?_, hJ.h0, hJ.hpd, hJ.hcd, ?_, ?_⟩
    · intro v hv
      rcases List.mem_append.mp hv with hv | hv
      · exact hJ.hq v hv
      · simp only [List.mem_singleton] at hv
        subst hv
        exact ⟨ds, hs⟩
    · intro v hv
      rcases List.mem_append.mp hv with hv | hv
      · exact hJ.hpb v hv
      · simp only [List.mem_singleton] at hv
        subst hv
        exact ⟨ds, hs, by omega⟩
    · intro u du hu
      rcases hJ.hrx u du hu with h1 | h1 | h1
      · exact Or.inl (List.mem_append_left _ h1)
      · exact Or.inr (Or.inl h1)
      · exact Or.inr (Or.inr h1)
  · -- update: succ gets distance dc + 1 and predecessor cur
    have hnec : succ ≠ cur := by
      rcases hchoice with hn | ⟨ds, hsd, hlt⟩
      · intro hc; rw [hc, hJ.hcd] at hn; exact Option.noConfusion hn
      · intro hc; rw [hc, hJ.hcd] at hsd
        obtain rfl : ds = dc := by simpa using hsd.symm
        omega
    have hne0 : succ ≠ 0 := by
      rcases hchoice with hn | ⟨ds, hsd, hlt⟩
      · intro hc; rw [hc, hJ.h0] at hn; exact Option.noConfusion hn
      · intro hc; rw [hc, hJ.h0] at hsd
        obtain rfl : ds = 0 := by simpa using hsd.symm
        omega
    have hdist : ∀ k, getv (dictSet acc.dist succ (dc + 1)) k =
        if succ = k then some (dc + 1) else getv acc.dist k :=
      fun k => getv_dictSet acc.dist succ (dc + 1) k
    have hpredv : ∀ k, getv (dictSet acc.pred succ (some cur)) k =
        if succ = k then some (some cur) else getv acc.pred k :=
      fun k => getv_dictSet acc.pred succ (some cur) k
    have hmono : ∀ k dk, getv acc.dist k = some dk →
        ∃ dk2, getv (dictSet acc.dist succ (dc + 1)) k = some dk2 ∧ dk2 ≤ dk := by
      intro k dk hk
      rw [hdist k]
      by_cases hsk : succ = k
      · subst hsk
        rcases hchoice with hn | ⟨ds, hsd, hlt⟩
        · rw [hk] at hn; exact Option.noConfusion hn
        · rw [hk] at hsd
          obtain rfl : ds = dk := by simpa using hsd.symm
          exact ⟨dc + 1, by rw [if_pos rfl], by omega⟩
      · exact ⟨dk, by rw [if_neg hsk]; exact hk, le_refl dk⟩
    refine ⟨?_, ?_, ?_, ?_, ?_, ?_⟩
    · intro v hv
      rcases List.mem_append.mp hv with hv | hv
      · obtain ⟨d, hd⟩ := hJ.hq v hv
        obtain ⟨d2, hd2, -⟩ := hmono v d hd
        exact ⟨d2, hd2⟩
      · simp only [List.mem_singleton] at hv
        rw [hv]
        exact ⟨dc + 1, by rw [hdist succ, if_pos rfl]⟩
    · show getv (dictSet acc.dist succ (dc + 1)) 0 = some 0
      rw [hdist 0, if_neg hne0]
      exact hJ.h0
    · intro v u hv
      rw [hpredv v] at hv
      by_cases hsv : succ = v
      · subst hsv
        rw [if_pos rfl] at hv
        obtain rfl : cur = u := by simpa using hv
        refine ⟨dc + 1, dc, by rw [hdist succ, if_pos rfl], ?_, le_refl _⟩
        rw [hdist cur, if_neg hnec]
        exact hJ.hcd
      · rw [if_neg hsv] at hv
        obtain ⟨dv, du, hdv, hdu, hle⟩ := hJ.hpd v u hv
        obtain ⟨dv2, hdv2, hdvle⟩ := hmono v dv hdv
        have hdveq : dv2 = dv := by
          rw [hdist v, if_neg hsv] at hdv2
          rw [hdv] at hdv2
          simpa using hdv2.symm
        obtain ⟨du2, hdu2, hdule⟩ := hmono u du hdu
        exact ⟨dv2, du2, hdv2, hdu2, by omega⟩
    · show getv (dictSet acc.dist succ (dc + 1)) cur = some dc
      rw [hdist cur, if_neg hnec]
      exact hJ.hcd
    · intro v hv
      rcases List.mem_append.mp hv with hv | hv
      · obtain ⟨dv, hdv, hle⟩ := hJ.hpb v hv
        obtain ⟨dv2, hdv2, hdvle⟩ := hmono v dv hdv
        exact ⟨dv2, hdv2, by omega⟩
      · simp only [List.mem_singleton] at hv
        rw [hv]
        exact ⟨dc + 1, by rw [hdist succ, if_pos rfl], le_refl _⟩
    · intro u du hu
      by_cases hsu : succ = u
      · subst hsu
        exact Or.inl (List.mem_append_right _ (List.mem_singleton.mpr rfl))
      · rw [hdist u, if_neg hsu] at hu
        rcases hJ.hrx u du hu with h1 | h1 | h1
        · exact Or.inl (List.mem_append_left _ h1)
        · exact Or.inr (Or.inl h1)
        · refine Or.inr (Or.inr ?_)
          intro v hvsucc
          obtain ⟨dv, hdv, hle⟩ := h1 v hvsucc
          obtain ⟨dv2, hdv2, hdvle⟩ := hmono v dv hdv
          exact ⟨dv2, hdv2, by omega⟩

theorem bfsFold_rinv (g : DAG) (cur dc : Nat) :
    ∀ (l processed : List Nat) (acc acc' : BfsState),
      l.foldlM (bfsRelax cur) acc = some acc' →
      RInv g cur dc processed acc →
      RInv g cur dc (processed ++ l) acc' := by
  intro l
  induction l with
  | nil =>
    intro processed acc acc' h hJ
    obtain rfl : acc = acc' := by simpa [List.foldlM] using h
    simpa using hJ
  | cons a t ih =>
    intro processed acc acc' h hJ
    rw [List.foldlM_cons] at h
    cases ha : bfsRelax cur acc a with
    | none => rw [ha] at h; simp at h
    | some acc1 =>
      rw [ha] at h
      simp only [Option.bind_eq_bind, Option.some_bind] at h
      have := ih (processed ++ [a]) acc1 acc' h
        (bfsRelax_rinv g cur dc processed acc acc1 a ha hJ)
      simpa [List.append_assoc] using this

/-- The search-loop invariant. -/
structure BfsInv (g : DAG) (st : BfsState) : Prop where
  hq : ∀ v ∈ st.q, ∃ d, getv st.dist v = some d
  h0 : getv st.dist 0 = some 0
  hpd : ∀ v u, getv st.pred v = some (some u) →
    ∃ dv du, getv st.dist v = some dv ∧ getv st.dist u = some du ∧ du + 1 ≤ dv
  hrx : ∀ u du, getv st.dist u = some du →
    u ∈ st.q ∨ ∀ v ∈ g.successors u,
      ∃ dv, getv st.dist v = some dv ∧ dv ≤ du + 1

theorem bfsStep_inv (g : DAG) (st st' : BfsState)
    (h : bfsStep g st = some st') (hi : BfsInv g st) : BfsInv g st' := by
  cases hqe : st.q with
  | nil =>
    unfold bfsStep at h
    rw [hqe] at h
    obtain rfl : st = st' := by simpa using h
    exact hi
  | cons cur rest =>
    unfold bfsStep at h
    rw [hqe] at h
    obtain ⟨dc, hdc⟩ := hi.hq cur (by rw [hqe]; exact List.mem_cons_self _ _)
    have hinit : RInv g cur dc [] { st with q := rest } := by
      refine ⟨?_, hi.h0, hi.hpd, hdc, ?_, ?_⟩
      · intro v hv
        exact hi.hq v (by rw [hqe]; exact List.mem_cons_of_mem _ hv)
      · intro v hv
        exact absurd hv (List.not_mem_nil v)
      · intro u du hu
        rcases hi.hrx u du hu with h1 | h1
        · rw [hqe] at h1
          rcases List.mem_cons.mp h1 with h2 | h2
          · exact Or.inr (Or.inl h2)
          · exact Or.inl h2
        · exact Or.inr (Or.inr h1)
    have hfin := bfsFold_rinv g cur dc (g.successors cur) [] _ st' h hinit
    simp only [List.nil_append] at hfin
    refine ⟨hfin.hq, hfin.h0, hfin.hpd, ?_⟩
    intro u du hu
    rcases hfin.hrx u du hu with h1 | h1 | h1
    · exact Or.inl h1
    · subst h1
      refine Or.inr ?_
      intro v hv
      obtain ⟨dv, hdv, hle⟩ := hfin.hpb v hv
      have : du = dc := by
        rw [hfin.hcd] at hu
        simpa using hu.symm
      exact ⟨dv, hdv, by omega⟩
    · exact Or.inr h1

theorem bfsLoop_inv (g : DAG) :
    ∀ (fuel : Nat) (st st' : BfsState),
      bfsLoop g fuel st = some st' → BfsInv g st →
      BfsInv g st' ∧ st'.q = [] := by
  intro fuel
  induction fuel with
  | zero =>
    intro st st' h hi
    by_cases hqe : st.q = []
    · rw [bfsLoop_empty g 0 st hqe] at h
      obtain rfl : st = st' := by simpa using h
      exact ⟨hi, hqe⟩
    · unfold bfsLoop at h
      rw [if_neg (by simpa [List.isEmpty_iff] using hqe)] at h
      exact Option.noConfusion h
  | succ f ih =>
    intro st st' h hi
    by_cases hqe : st.q = []
    · rw [bfsLoop_empty g (f + 1) st hqe] at h
      obtain rfl : st = st' := by simpa using h
      exact ⟨hi, hqe⟩
    · rw [bfsLoop_cons g f st hqe] at h
      cases hstep : bfsStep g st with
      | none => rw [hstep] at h; exact Option.noConfusion h
      | some st1 =>
        rw [hstep] at h
        simp only [Option.some_bind] at h
        exact ih st1 st' h (bfsStep_inv g st st1 hstep hi)

/-- After the queue has drained, the distances satisfy the triangle
inequality along every edge out of a seen node, so the chain forces
`dist(i) ≤ i` for every chain node. -/
theorem dist_chain_bound (g : DAG) (st : BfsState) (n : Nat)
    (hchain : ∀ i, i ≤ n → (i + 1) ∈ g.successors i)
    (h0 : getv st.dist 0 = some 0)
    (htri : ∀ u du, getv st.dist u = some du → ∀ v ∈ g.successors u,
      ∃ dv, getv st.dist v = some dv ∧ dv ≤ du + 1) :
    ∀ i, i ≤ n + 1 → ∃ d, getv st.dist i = some d ∧ d ≤ i := by
  intro i
  induction i with
  | zero => intro _; exact ⟨0, h0, le_refl 0⟩
  | succ j ih =>
    intro hj
    obtain ⟨d, hd, hdle⟩ := ih (by omega)
    obtain ⟨d2, hd2, hd2le⟩ := htri j d hd (j + 1) (hchain j (by omega))
    exact ⟨d2, hd2, by omega⟩

/-- A successfully reconstructed path is no longer than the distance of its
endpoint plus one: predecessors strictly decrease the distance. -/
theorem walkPred_len (st : BfsState)
    (hpd : ∀ v u, getv st.pred v = some (some u) →
      ∃ dv du, getv st.dist v = some dv ∧ getv st.dist u = some du ∧
        du + 1 ≤ dv) :
    ∀ (fuel v : Nat) (path : List Nat) (dv : Nat),
      walkPred st.pred fuel (some v) = some path →
      getv st.dist v = some dv → path.length ≤ dv + 1 := by
  intro fuel
  induction fuel with
  | zero => intro v path dv h; exact absurd h (by simp [walkPred])
  | succ f ih =>
    intro v path dv h hdv
    unfold walkPred at h
    cases hnx : getv st.pred v with
    | none => rw [hnx] at h; simp at h
    | some nxt =>
      rw [hnx] at h
      simp only [Option.bind_eq_bind, Option.some_bind] at h
      cases nxt with
      | none =>
        rw [walkPred_none] at h
        simp only [Option.some_bind, Option.pure_def, Option.some.injEq] at h
        subst h
        simp
      | some u =>
        cases hrest : walkPred st.pred f (some u) with
        | none => rw [hrest] at h; simp at h
        | some path1 =>
          rw [hrest] at h
          simp only [Option.some_bind, Option.pure_def, Option.some.injEq] at h
          subst h
          obtain ⟨dv2, du, hdv2, hdu, hlt⟩ := hpd v u hnx
          have hde : dv2 = dv := by
            rw [hdv] at hdv2
            simpa using hdv2.symm
          have hp1 := ih u path1 du hrest hdu
          simp only [List.length_append, List.length_singleton]
          omega

theorem mapM_length {α β : Type} (f : α → Option β) :
    ∀ (l : List α) (out : List β), l.mapM f = some out → out.length = l.length := by
  intro l
  induction l with
  | nil =>
    intro out h
    obtain rfl : ([] : List β) = out := Option.some.inj h
    rfl
  | cons a t ih =>
    intro out h
    rw [List.mapM_cons] at h
    cases hfa : f a with
    | none => rw [hfa] at h; simp at h
    | some b =>
      rw [hfa] at h
      simp only [Option.bind_eq_bind, Option.some_bind] at h
      cases hrest : t.mapM f with
      | none => rw [hrest] at h; simp at h
      | some out1 =>
        rw [hrest] at h
        simp only [Option.some_bind, Option.pure_def, Option.some.injEq] at h
        subst h
        simp [ih out1 hrest]

theorem mapM_values_short (g : DAG) (hN : NodesShort g) :
    ∀ (mids : List Nat) (vals : List Str),
      mids.mapM (fun id => (g.nodes.get? id).bind fun v => v) = some vals →
      ∀ w ∈ vals, w.length ≤ 1 := by
  intro mids
  induction mids with
  | nil =>
    intro vals h w hw
    obtain rfl : ([] : List Str) = vals := Option.some.inj h
    exact absurd hw (List.not_mem_nil w)
  | cons a t ih =>
    intro vals h w hw
    rw [List.mapM_cons] at h
    cases hfa : (g.nodes.get? a).bind fun v => v with
    | none => rw [hfa] at h; simp at h
    | some b =>
      rw [hfa] at h
      simp only [Option.bind_eq_bind, Option.some_bind] at h
      cases hrest : t.mapM (fun id => (g.nodes.get? id).bind fun v => v) with
      | none => rw [hrest] at h; simp at h
      | some vals1 =>
        rw [hrest] at h
        simp only [Option.some_bind, Option.pure_def, Option.some.injEq] at h
        subst h
        rcases List.mem_cons.mp hw with hw1 | hw1
        · subst hw1
          obtain ⟨v, hget, hv⟩ := Option.bind_eq_some.mp hfa
          exact hN v (List.get?_mem hget) w hv
        · exact ih vals1 hrest w hw1

theorem flatten_short : ∀ (vals : List Str), (∀ w ∈ vals, w.length ≤ 1) →
    vals.flatten.length ≤ vals.length := by
  intro vals
  induction vals with
  | nil => intro _; simp
  | cons w t ih =>
    intro h
    rw [List.flatten_cons]
    simp only [List.length_append, List.length_cons]
    have h1 := h w (List.mem_cons_self _ _)
    have h2 := ih (fun x hx => h x (List.mem_cons_of_mem _ hx))
    omega

/-- C6: confirmed (as partial correctness).  For every optimized index
derived from mapping facts and every target, whenever `shorten_optimal`
returns a string, that string is no longer than the target: all node
values on the reconstructed path are single characters, the path is bounded
by the distance of `end`, and the pass-through chain keeps that distance at
most `s.length + 1`.  (For inputs on which the search loop diverges —
see the C2/C5 theorems — no string is returned at any fuel.) -/
theorem shorten_optimal_nonexpansion (parsed : List (Char × Str)) (s : Str)
    (fuel : Nat) (out : Str)
    (h : shorten_optimal fuel (optimize (create_lookup parsed)) s = some out) :
    out.length ≤ s.length := by
  unfold shorten_optimal at h
  rw [buildGraph_unfold] at h
  cases hfold : (optimize (create_lookup parsed)).foldlM
      (shortcutStep s (List.range' 1 s.length)) (chainDag s) with
  | none => rw [hfold] at h; simp at h
  | some g =>
    rw [hfold] at h
    simp only [Option.bind_eq_bind, Option.some_bind] at h
    cases hloop : bfsLoop g fuel ⟨[0], [(0, 0)], [(0, none)]⟩ with
    | none => rw [hloop] at h; simp at h
    | some st =>
      rw [hloop] at h
      simp only [Option.some_bind] at h
      cases hwalk : walkPred st.pred fuel (some (s.length + 1)) with
      | none => rw [hwalk] at h; simp at h
      | some path =>
        rw [hwalk] at h
        simp only [Option.some_bind] at h
        cases hmap : ((path.drop 1).dropLast).mapM
            (fun id => (g.nodes.get? id).bind fun v => v) with
        | none => rw [hmap] at h; simp at h
        | some vals =>
          rw [hmap] at h
          simp only [Option.some_bind, Option.pure_def, Option.some.injEq] at h
          obtain rfl : vals.flatten = out := h
          obtain ⟨hNS, hmono⟩ := shortcutFold_facts s (List.range' 1 s.length)
            (optimize (create_lookup parsed)) (chainDag s) g hfold
            (pipeline_len1 parsed) (nodesShort_chainDag s)
          have hchain : ∀ i, i ≤ s.length → (i + 1) ∈ g.successors i := by
            intro i hi
            have hsc : DAG.successors (chainDag s) i = [i + 1] := by
              unfold DAG.successors
              rw [getv_chainDag_from s i, if_pos (by omega)]
              rfl
            refine hmono i (i + 1) ?_
            rw [hsc]
            exact List.mem_singleton.mpr rfl
          have hinv0 : BfsInv g ⟨[0], [(0, 0)], [(0, none)]⟩ := by
            refine ⟨?_, by simp [getv], ?_, ?_⟩
            · intro v hv
              simp only [List.mem_singleton] at hv
              subst hv
              exact ⟨0, by simp [getv]⟩
            · intro v u hv
              simp only [getv] at hv
              split at hv
              · simp at hv
              · simp at hv
            · intro u du hu
              simp only [getv] at hu
              split at hu
              · left
                rename_i heq
                simp only [← heq]
                exact List.mem_singleton.mpr rfl
              · simp at hu
          obtain ⟨hinvF, hqF⟩ := bfsLoop_inv g fuel _ st hloop hinv0
          have htri : ∀ u du, getv st.dist u = some du →
              ∀ v ∈ g.successors u, ∃ dv, getv st.dist v = some dv ∧
                dv ≤ du + 1 := by
            intro u du hu
            rcases hinvF.hrx u du hu with h1 | h1
            · rw [hqF] at h1
              exact absurd h1 (List.not_mem_nil u)
            · exact h1
          obtain ⟨dEnd, hdEnd, hdEndle⟩ := dist_chain_bound g st s.length
            hchain hinvF.h0 htri (s.length + 1) (le_refl _)
          have hplen := walkPred_len st hinvF.hpd fuel (s.length + 1) path
            dEnd hwalk hdEnd
          have hmids : ((path.drop 1).dropLast).length ≤ s.length := by
            simp only [List.length_dropLast, List.length_drop]
            omega
          have hvlen := mapM_length _ _ vals hmap
          have hshort := mapM_values_short g hNS _ vals hmap
          have hflat := flatten_short vals hshort
          omega

/-- Witness for C6 at a concrete input: the fact `x ↦ ab` and the target
"cab" give the shortened string "cx", of length 2 ≤ 3. -/
theorem shorten_optimal_nonexpansion_witness :
    ("cx".toList : Str).length ≤ ("cab".toList : Str).length :=
  shorten_optimal_nonexpansion [('x', "ab".toList)] "cab".toList 30 "cx".toList
    (by simp [shorten_optimal, buildGraph, buildChain, chainStep, shortcutStep,
      occLoop, pyFind, occursAt, pyGet, bfsLoop, bfsStep, bfsRelax, walkPred,
      getv, dictSet, adjAdd, DAG.add_node, DAG.add_edge, DAG.empty,
      DAG.predecessors, DAG.successors, List.foldlM, List.range,
      List.range.loop, List.find?, Option.bind, List.mapM, List.mapM.loop,
      optimize, optEntry, optInner, create_lookup])
